import Mathlib

/-!
Verification of the s3ftpgateway FTP server core against its
natural-language specification.

The definitions below are shallow embeddings of the Go sources:
* `ftp/telnet.go` (`dumbTelnetConn`) — the Telnet option stripper,
* `ftp/server.go` (`Server.choosePassivePort` / `Server.releasePassivePort`)
  — the passive-port lease table,
* `ftp/conn.go` (`ServerConn.writeReply`, `ServerConn.buildPath`,
  `ServerConn.serve`) — reply encoding, path resolution and the command loop,
* `ftp/command.go` — the command parser and the PASS / PASV / PORT / EPRT /
  PROT command handlers,
together with the fragments of the Go standard library they use
(`path.Clean`, `path.Join`, `strings.TrimSpace`, `strconv.Atoi`).

Byte streams are modelled as `List Nat`, Go slices as `List`, Go `int`
arithmetic as `Int` with explicit wrapping where overflow is reachable.
External effects (the authorizer, `net.Listen`, `net.Dial`, `net.ParseIP`)
are modelled as explicit parameters of the handler functions; each handler
returns the replies it wrote and the session state it left behind.
-/

namespace S3FTP

/-! ### Telnet stripper (`dumbTelnetConn`, ftp/telnet.go)

`telnetWrite` is `dumbTelnetConn.Write` in the state where no reject-option
bytes are pending (fresh connection): it looks up the first 0xFF (IAC) byte,
writes the prefix before it, writes one extra IAC byte, then writes the whole
remaining buffer and leaves the loop (the loop body ends in an unconditional
`break`). -/

def telnetCmdSe : Nat := 240
def telnetCmdSb : Nat := 250
def telnetCmdWill : Nat := 251
def telnetCmdWont : Nat := 252
def telnetCmdDo : Nat := 253
def telnetCmdDont : Nat := 254
def telnetCmdIac : Nat := 255

def telnetWrite (buf : List Nat) : List Nat :=
  match buf.findIdx? (· = telnetCmdIac) with
  | some idx => buf.take idx ++ [telnetCmdIac] ++ buf.drop idx
  | none => buf

/-- `dumbTelnetConn.ignoreSubnegotiation`, the scan for the IAC SE
terminator after `IAC SB <option>`: reads bytes, tracking whether the
previous byte was IAC; on `IAC SE` it returns the rest of the stream; on
end of stream it fails (the Go code returns the read error). -/
def scanIacSe (foundIac : Bool) : List Nat → Option (List Nat)
  | [] => none
  | c :: r =>
    if foundIac then
      if c = telnetCmdSe then some r else scanIacSe false r
    else
      scanIacSe (c = telnetCmdIac) r

theorem scanIacSe_length_lt (foundIac : Bool) (l : List Nat) (r : List Nat)
    (h : scanIacSe foundIac l = some r) : r.length < l.length := by
  induction l generalizing foundIac with
  | nil => simp [scanIacSe] at h
  | cons c t ih =>
    simp only [scanIacSe] at h
    by_cases hf : foundIac
    · simp only [hf, if_true] at h
      by_cases hc : c = telnetCmdSe
      · simp only [hc, if_true] at h
        cases h
        simp
      · simp only [hc, if_false] at h
        exact Nat.lt_trans (ih false h) (by simp)
    · simp only [hf, if_false] at h
      exact Nat.lt_trans (ih _ h) (by simp)

/-- The read side of the stripper, applied to the whole byte stream:
`telnetRead s` is the concatenation of the data bytes that
`dumbTelnetConn.Read` delivers over repeated calls until the underlying
stream is exhausted.  `none` models the case where the stream ends in the
middle of an IAC sequence, where the Go code reports a read error instead of
a clean EOF. -/
def telnetRead : List Nat → Option (List Nat)
  | [] => some []
  | b :: rest =>
    if b = telnetCmdIac then
      match rest with
      | [] => none
      | code :: rest' =>
        if code = telnetCmdSb then
          -- IAC SB <opt> … IAC SE: discard the option byte, then scan.
          match rest' with
          | [] => none
          | _opt :: rest'' =>
            match hscan : scanIacSe false rest'' with
            | none => none
            | some r =>
              have : r.length < rest''.length := scanIacSe_length_lt _ _ _ hscan
              telnetRead r
        else if code = telnetCmdWill ∨ code = telnetCmdDo then
          -- record option to reject; one option byte is consumed.
          match rest' with
          | [] => none
          | _opt :: rest'' => telnetRead rest''
        else if code = telnetCmdWont ∨ code = telnetCmdDont then
          match rest' with
          | [] => none
          | _opt :: rest'' => telnetRead rest''
        else if code = telnetCmdIac then
          (telnetRead rest').map (telnetCmdIac :: ·)
        else
          -- any other single-byte command is ignored.
          telnetRead rest'
    else
      (telnetRead rest).map (b :: ·)
  termination_by l => l.length
  decreasing_by all_goals simp_all <;> omega

/-- **C1** (refuted; evidence for the code bug).  The specification demands
`read(write(x)) = x` for every byte sequence: the write side should double
every 0xFF.  The write loop of `dumbTelnetConn.Write` ends in an
unconditional `break`, so only the first 0xFF of a buffer is doubled: for
the buffer `[255, 0, 255, 0]` the produced stream is
`[255, 255, 0, 255, 0]`, and reading that stream back yields `[255, 0]`
(the unescaped second 0xFF is taken as an IAC command and swallows the
next byte), not the original sequence. -/
theorem c1_telnet_roundtrip_failure :
    telnetWrite [255, 0, 255, 0] = [255, 255, 0, 255, 0] ∧
    telnetRead (telnetWrite [255, 0, 255, 0]) = some [255, 0] ∧
    some [255, 0] ≠ some [255, 0, 255, 0] ∧
    -- the single-0xFF case from the repository's own test still round-trips:
    telnetRead (telnetWrite [255]) = some [255] := by
  refine ⟨by decide, ?_, by decide, ?_⟩ <;>
    simp [telnetRead, telnetWrite, scanIacSe, telnetCmdIac, telnetCmdSb,
      telnetCmdWill, telnetCmdDo, telnetCmdWont, telnetCmdDont, telnetCmdSe,
      List.findIdx?]

/-! ### Reply codec (`ServerConn.writeReply`, ftp/conn.go)

`fmtCode` is Go's `fmt.Sprintf("%03d", code)` for a non-negative code.
`writeReply` produces the bytes written on the control connection for one
reply: the Go function writes `"%03d \r\n"` for no message, `"%03d %s\r\n"`
for a single message, and otherwise one `"%03d-%s\r\n"` line for every
message but the last followed by a final `"%03d %s\r\n"` line. -/

def fmtCode (code : Nat) : String :=
  if code < 10 then "00" ++ toString code
  else if code < 100 then "0" ++ toString code
  else toString code

def writeReply (code : Nat) : List String → String
  | [] => fmtCode code ++ " \r\n"
  | [msg] => fmtCode code ++ " " ++ msg ++ "\r\n"
  | msg :: rest => fmtCode code ++ "-" ++ msg ++ "\r\n" ++ writeReply code rest

/-- The encoding of a reply as the specification describes it: `N-1` lines
of `"<code>-<line>\r\n"` followed by `"<code> <lastLine>\r\n"`, with the
degenerate zero- and one-line forms spelled out.  (Claim-side definition,
written from the spec's words, to be compared with `writeReply`.) -/
def specEncodeReply (code : Nat) (lines : List String) : String :=
  match lines with
  | [] => fmtCode code ++ " \r\n"
  | _ =>
    ((lines.dropLast).map fun l => fmtCode code ++ "-" ++ l ++ "\r\n").foldr
        (· ++ ·) ""
      ++ (fmtCode code ++ " " ++ lines.getLastD "" ++ "\r\n")

theorem asString_length (l : List Char) : (List.asString l).length = l.length :=
  rfl

theorem repr_length_three (n : ℕ) (h1 : 100 ≤ n) (h2 : n ≤ 999) :
    (Nat.repr n).length = 3 := by
  obtain ⟨m, rfl⟩ := Nat.exists_eq_add_of_le h1
  have e2 : 100 + m = (99 + m) + 1 := by omega
  have e3 : 99 + m = (98 + m) + 1 := by omega
  rw [Nat.repr, Nat.toDigits]
  rw [show (100 + m + 1) = (100 + m) + 1 from rfl]
  rw [Nat.toDigitsCore, if_neg (by omega : ¬ (100 + m) / 10 = 0)]
  nth_rewrite 1 [e2]
  rw [Nat.toDigitsCore,
    if_neg (by rw [Nat.div_div_eq_div_mul]; omega : ¬ (100 + m) / 10 / 10 = 0)]
  nth_rewrite 1 [e3]
  rw [Nat.toDigitsCore,
    if_pos (by rw [Nat.div_div_eq_div_mul, Nat.div_div_eq_div_mul]; omega :
      (100 + m) / 10 / 10 / 10 = 0)]
  rw [asString_length]
  rfl

/-- **C8**: for every reply written on a control connection the encoded
byte stream is `"<code> \r\n"` for zero message lines, `"<code> <line>\r\n"`
for one line, and for `N > 1` lines `N-1` lines `"<code>-<line>\r\n"`
followed by a final `"<code> <lastLine>\r\n"`; `<code>` is the three-digit
decimal code (no zero padding is added for codes in `[100, 999]`). -/
theorem c8_writeReply_encoding (code : Nat) (lines : List String)
    (hcode : 100 ≤ code ∧ code ≤ 999) :
    writeReply code lines = specEncodeReply code lines ∧
    fmtCode code = toString code ∧ (fmtCode code).length = 3 := by
  refine ⟨?_, ?_, ?_⟩
  · induction lines with
    | nil => rfl
    | cons m rest ih =>
      cases rest with
      | nil => simp [writeReply, specEncodeReply]
      | cons m' rest' =>
        rw [writeReply, ih, specEncodeReply, specEncodeReply]
        · simp [List.dropLast, List.getLastD, String.append_assoc]
        all_goals simp
  · simp only [fmtCode, if_neg (by omega : ¬ code < 10),
      if_neg (by omega : ¬ code < 100)]
  · simp only [fmtCode, if_neg (by omega : ¬ code < 10),
      if_neg (by omega : ¬ code < 100)]
    exact repr_length_three code hcode.1 hcode.2

/-- Witness for `c8_writeReply_encoding` at reply 220 with two lines. -/
theorem c8_writeReply_encoding_witness :
    writeReply 220 ["a", "b"] = specEncodeReply 220 ["a", "b"] ∧
    fmtCode 220 = toString 220 ∧ (fmtCode 220).length = 3 :=
  c8_writeReply_encoding 220 ["a", "b"] (by omega)

/-! ### Go standard-library string helpers

`goIsSpace` is Go's `unicode.IsSpace` (the Unicode `White_Space` property);
`goTrimSpace` is `strings.TrimSpace`; `goToUpperChar` is the ASCII fragment
of `unicode.ToUpper` (FTP verbs are ASCII; non-ASCII letters are returned
unchanged by this model).  Strings are modelled at the rune level; slicing
`s[:idx]`/`s[idx:]` at the byte index of the first `' '` splits the string
at that space, which at the rune level is `takeWhile`/`dropWhile`. -/

def goIsSpace (c : Char) : Bool :=
  let n := c.toNat
  (9 ≤ n && n ≤ 13) || n = 32 || n = 0x85 || n = 0xA0 || n = 0x1680 ||
    (0x2000 ≤ n && n ≤ 0x200A) || n = 0x2028 || n = 0x2029 || n = 0x202F ||
    n = 0x205F || n = 0x3000

def goTrimSpace (s : String) : String :=
  ⟨((s.data.dropWhile goIsSpace).reverse.dropWhile goIsSpace).reverse⟩

def goToUpperChar (c : Char) : Char :=
  if 'a' ≤ c ∧ c ≤ 'z' then Char.ofNat (c.toNat - 32) else c

def goToUpper (s : String) : String := ⟨s.data.map goToUpperChar⟩

/-! ### Command parser (`ParseCommand`, ftp/command.go)

The Go function trims the line, looks for the first `" "`, upper-cases the
text before it as `Name`, trims the text from the space on as `Arg`, and
always returns a `nil` error. -/

structure Command where
  Name : String
  Arg : String
deriving DecidableEq, Repr

def ParseCommand (s : String) : Command × Option String :=
  let t := goTrimSpace s
  match t.data.findIdx? (· = ' ') with
  | some idx =>
    (⟨goToUpper ⟨t.data.take idx⟩, goTrimSpace ⟨t.data.drop idx⟩⟩, none)
  | none => (⟨goToUpper t, ""⟩, none)

/-- The branch of the command loop (`ServerConn.serve`, ftp/conn.go) that
replies `500 Syntax error.` when `ParseCommand` reports an error. -/
def serveParseErrorReply (text : String) : Option (Nat × String) :=
  match (ParseCommand text).2 with
  | some _ => some (500, "Syntax error.")
  | none => none

/-- The verb as the claim describes it: the upper-cased text before the
first space of the whitespace-trimmed line, the whole trimmed line when
there is no space.  (Claim-side definition.) -/
def specVerb (line : String) : String :=
  goToUpper ⟨(goTrimSpace line).data.takeWhile (· ≠ ' ')⟩

/-- The argument as the claim describes it: the trimmed remainder (from the
first space on; empty when there is no space).  (Claim-side definition.) -/
def specArg (line : String) : String :=
  goTrimSpace ⟨(goTrimSpace line).data.dropWhile (· ≠ ' ')⟩

theorem takeWhile_eq_take_findIdx (l : List Char) (idx : Nat)
    (h : l.findIdx? (· = ' ') = some idx) :
    l.takeWhile (· ≠ ' ') = l.take idx ∧ l.dropWhile (· ≠ ' ') = l.drop idx := by
  induction l generalizing idx with
  | nil => simp at h
  | cons c t ih =>
    rw [List.findIdx?_cons] at h
    by_cases hc : c = ' '
    · rw [if_pos (by simp [hc])] at h
      cases h
      simp [hc]
    · rw [if_neg (by simp [hc]), List.findIdx?_succ] at h
      obtain ⟨j, hj, rfl⟩ := Option.map_eq_some'.mp h
      obtain ⟨h1, h2⟩ := ih j hj
      simp only [ne_eq, decide_not] at h1 h2
      simp [hc, h1, h2]

theorem takeWhile_eq_self_of_findIdx_none (l : List Char)
    (h : l.findIdx? (· = ' ') = none) :
    l.takeWhile (· ≠ ' ') = l ∧ l.dropWhile (· ≠ ' ') = [] := by
  rw [List.findIdx?_eq_none_iff] at h
  constructor
  · rw [List.takeWhile_eq_self_iff]
    intro x hx
    simpa using h x hx
  · rw [List.dropWhile_eq_nil_iff]
    intro x hx
    simpa using h x hx

/-- **C10**: `ParseCommand` is total and never fails: for every input
string it returns the upper-cased text before the first space of the
trimmed line as the verb (the whole trimmed line when there is no space)
and the trimmed remainder as the argument, together with a `nil` error;
consequently the `500 Syntax error.` branch of the command loop is
unreachable. -/
theorem c10_parseCommand_total (s : String) :
    (ParseCommand s).2 = none ∧
    (ParseCommand s).1.Name = specVerb s ∧
    (ParseCommand s).1.Arg = specArg s ∧
    serveParseErrorReply s = none := by
  have heta : ∀ t : String, (⟨t.data⟩ : String) = t := fun _ => rfl
  have hmain : (ParseCommand s).2 = none ∧
      (ParseCommand s).1.Name = specVerb s ∧
      (ParseCommand s).1.Arg = specArg s := by
    unfold ParseCommand specVerb specArg
    cases h : (goTrimSpace s).data.findIdx? (· = ' ') with
    | none =>
      obtain ⟨h1, h2⟩ := takeWhile_eq_self_of_findIdx_none _ h
      simp only [h, h1, h2, heta]
      refine ⟨?_, ?_, ?_⟩ <;> first | rfl | trivial
    | some idx =>
      obtain ⟨h1, h2⟩ := takeWhile_eq_take_findIdx _ idx h
      simp only [h, h1, h2]
      refine ⟨?_, ?_, ?_⟩ <;> first | rfl | trivial
  refine ⟨hmain.1, hmain.2.1, hmain.2.2, ?_⟩
  simp [serveParseErrorReply, hmain.1]

/-! ### FTP status codes (ftp/status.go) -/

def StatusCommandOK : Nat := 200
def StatusLoggedIn : Nat := 230
def StatusPassiveMode : Nat := 227
def StatusBadCommand : Nat := 500
def StatusBadArguments : Nat := 501
def StatusNotImplemented : Nat := 502
def StatusNotImplementedParameter : Nat := 504
def StatusNotLoggedIn : Nat := 530
def StatusCanNotOpenDataConnection : Nat := 425
def StatusProtLevelNotSupported : Nat := 536
-- `StatusNetworkProtoNotSupported` is referenced by `commandEprt.Execute`
-- but its declaration is not among the sources; RFC 2428 assigns 522.  No
-- claim below depends on its value.
def StatusNetworkProtoNotSupported : Nat := 522

/-! ### Session state (`ServerConn`, ftp/conn.go)

The per-session fields the modelled handlers read or write.  `auth` models
`c.auth ≠ nil` (the authorization value itself is opaque to the handlers
modelled here); `prot` is the data-channel protection level byte. -/

def protectionLevelClear : Char := 'C'

structure Session where
  user : String := ""
  auth : Bool := false
  failCnt : Nat := 0
  pwd : String := ""
  tls : Bool := false
  prot : Char := Char.ofNat 0
  epsvAll : Bool := false
  closing : Bool := false
deriving DecidableEq, Repr

/-- A reply written with `WriteReply`: code and single message line. -/
abbrev Reply := Nat × String

/-! ### PROT (`commandProt.Execute`, ftp/command.go) -/

def commandProtExecute (s : Session) (arg : String) : List Reply × Session :=
  if arg = "C" then
    ([(StatusCommandOK, "OK.")], { s with prot := protectionLevelClear })
  else if arg = "S" then
    ([(StatusProtLevelNotSupported, "Safe level is not supported.")], s)
  else if arg = "E" then
    ([(StatusProtLevelNotSupported, "Confidential level is not supported.")], s)
  else if arg = "P" then
    if s.tls then ([(StatusCommandOK, "OK.")], s)
    else ([(StatusProtLevelNotSupported, "Private level is only supported in TLS.")], s)
  else
    -- the Go switch has no default case: fall through without replying.
    ([], s)

/-- **C9**: a PROT command whose argument is not exactly one of `"C"`,
`"S"`, `"E"`, `"P"` produces no reply at all and leaves the whole session
state (in particular the protection level) unchanged. -/
theorem c9_prot_unknown_silent (s : Session) (arg : String)
    (h : arg ≠ "C" ∧ arg ≠ "S" ∧ arg ≠ "E" ∧ arg ≠ "P") :
    commandProtExecute s arg = ([], s) := by
  simp [commandProtExecute, h.1, h.2.1, h.2.2.1, h.2.2.2]

/-- Witness for `c9_prot_unknown_silent`: a lowercase `"p"` is silently
ignored. -/
theorem c9_prot_unknown_silent_witness :
    commandProtExecute { auth := true, tls := true } "p" =
      ([], { auth := true, tls := true }) :=
  c9_prot_unknown_silent _ "p" (by decide)

/-! ### PASS (`commandPass.Execute`, ftp/command.go)

The authorizer (`c.server.authorizer().Authorize`) is external; its outcome
is a parameter: success, `ErrAuthorizeFailed`, or any other error.
`ctxCancelled` tells whether `sleepWithContext` is interrupted by the
command context; `slept` records that `sleepWithContext` was invoked. -/

inductive AuthResult
  | ok
  | failed
  | otherErr
deriving DecidableEq, Repr

def isAnonymous (user : String) : Bool := user = "anonymous" || user = "ftp"

structure PassOut where
  replies : List Reply
  slept : Bool
deriving DecidableEq, Repr

def commandPassExecute (s : Session) (res : AuthResult) (ctxCancelled : Bool) :
    PassOut × Session :=
  match res with
  | .ok =>
    ({ replies := [(StatusLoggedIn, "User logged in, proceed.")], slept := false },
     { s with failCnt := 0, auth := true, pwd := "/" })
  | r =>
    let s1 := { s with failCnt := s.failCnt + 1 }
    let sleeps := s1.failCnt > 1 || !isAnonymous s1.user
    if sleeps && ctxCancelled then
      -- sleepWithContext returned the context's error: log and close,
      -- no reply is written.
      ({ replies := [], slept := true }, { s1 with closing := true })
    else if r = .failed then
      ({ replies := [(StatusNotLoggedIn, "Not logged in.")], slept := sleeps },
       { s1 with closing := s1.failCnt > 5 })
    else
      ({ replies := [(StatusBadCommand, "Internal error.")], slept := sleeps },
       { s1 with closing := s1.failCnt > 5 })

/-- **C6**: on authorizer success PASS replies `230`, sets the working
directory to `/` and clears the fail counter; on authorizer failure
(uninterrupted) it increments the counter, invokes the 5-second sleep
exactly when the user is non-anonymous or the incremented counter exceeds
1, replies `530`, and marks the session closing exactly when the counter
exceeds 5. -/
theorem c6_pass_behaviour (s : Session) (res : AuthResult) (cancelled : Bool) :
    (res = .ok →
      commandPassExecute s res cancelled =
        ({ replies := [(StatusLoggedIn, "User logged in, proceed.")], slept := false },
         { s with failCnt := 0, auth := true, pwd := "/" })) ∧
    (res = .failed → cancelled = false →
      commandPassExecute s res cancelled =
        ({ replies := [(StatusNotLoggedIn, "Not logged in.")],
           slept := (s.failCnt + 1 > 1 || !isAnonymous s.user) },
         { s with failCnt := s.failCnt + 1, closing := s.failCnt + 1 > 5 })) := by
  constructor
  · rintro rfl
    rfl
  · rintro rfl rfl
    simp [commandPassExecute]

/-- Witness for `c6_pass_behaviour`: a successful PASS for `"alice"`, and a
first failed PASS for the non-anonymous `"attacker"` (which sleeps, replies
530 and does not close). -/
theorem c6_pass_behaviour_witness :
    commandPassExecute { user := "alice", pwd := "", failCnt := 3 } .ok false =
      ({ replies := [(StatusLoggedIn, "User logged in, proceed.")], slept := false },
       { user := "alice", pwd := "/", failCnt := 0, auth := true }) ∧
    commandPassExecute { user := "attacker" } .failed false =
      ({ replies := [(StatusNotLoggedIn, "Not logged in.")], slept := true },
       { user := "attacker", failCnt := 1, closing := false }) := by
  constructor
  · exact (c6_pass_behaviour _ .ok false).1 rfl
  · have h := (c6_pass_behaviour { user := "attacker" } .failed false).2 rfl rfl
    rw [h]
    decide

/-! ### PASV (`commandPasv.Execute`, ftp/command.go)

`publicIPv4` is the result of `c.publicIPv4()` (first configured IPv4, else
the control connection's local IPv4, else nil); `dtRes` is the outcome of
`c.newPassiveDataTransfer()` (which leases a passive port and binds a
listener).  `createdDT` records that a passive data transfer was created;
`panicked` records that the `227` format string indexed the nil IP slice. -/

inductive PasvDTResult
  | ok (port : Nat)
  | disabled
  | otherErr
deriving DecidableEq, Repr

structure PasvOut where
  replies : List Reply
  createdDT : Bool
  panicked : Bool
deriving DecidableEq, Repr

def commandPasvExecute (s : Session)
    (publicIPv4 : Option (Nat × Nat × Nat × Nat)) (dtRes : PasvDTResult) :
    PasvOut × Session :=
  if s.epsvAll then
    ({ replies := [(StatusBadArguments, "PASV command is disabled.")],
       createdDT := false, panicked := false }, s)
  else
    -- when no public IPv4 is available the Go code writes 502 but,
    -- lacking a `return`, falls through to create the data transfer.
    let pre : List Reply :=
      if publicIPv4.isNone then
        [(StatusNotImplemented, "PASV command is disabled.")]
      else []
    match dtRes with
    | .disabled =>
      ({ replies := pre ++ [(StatusNotImplemented, "Passive mode is disabled.")],
         createdDT := false, panicked := false }, s)
    | .otherErr =>
      ({ replies := pre ++ [(StatusCanNotOpenDataConnection, "Data connection failed.")],
         createdDT := false, panicked := false }, s)
    | .ok port =>
      match publicIPv4 with
      | none =>
        -- `ipv4[0]` on the nil slice: runtime panic while formatting 227.
        ({ replies := pre, createdDT := true, panicked := true }, s)
      | some (a, b, c, d) =>
        ({ replies := pre ++
            [(StatusPassiveMode,
              "Entering Passive Mode (" ++ toString a ++ "," ++ toString b ++ ","
                ++ toString c ++ "," ++ toString d ++ ","
                ++ toString (port / 256) ++ "," ++ toString (port % 256) ++ ")")],
           createdDT := true, panicked := false }, s)

/-- **C7** (refuted; evidence for the code bug).  With no public IPv4 and a
working listener, PASV writes `502` but — the `return` being missing — then
still creates the passive data transfer (leasing a port) and panics
indexing the nil IP slice while formatting the `227` reply.  The claim
says nothing further happens after the `502`. -/
theorem c7_pasv_no_ipv4_falls_through :
    commandPasvExecute { auth := true } none (.ok 2121) =
      ({ replies := [(StatusNotImplemented, "PASV command is disabled.")],
         createdDT := true, panicked := true }, { auth := true }) := by
  decide

/-! ### PORT / EPRT (`commandPort.Execute`, `commandEprt.Execute`,
ftp/command.go)

Further Go standard-library fragments: `strings.Split` with a one-character
separator, and `strconv.Atoi` (base-10 `ParseInt` into a 64-bit int:
optional sign, at least one decimal digit, error on any other rune and on
64-bit overflow).  `wrap64` is two's-complement wrap-around of Go `int`
arithmetic. -/

def splitChars (sep : Char) : List Char → List (List Char)
  | [] => [[]]
  | c :: r =>
    let rest := splitChars sep r
    if c = sep then [] :: rest
    else
      match rest with
      | h :: t => (c :: h) :: t
      | [] => [[c]]

def goSplit (s : String) (sep : Char) : List String :=
  (splitChars sep s.data).map fun l => ⟨l⟩

def parseDigits (l : List Char) : Option Nat :=
  match l with
  | [] => none
  | _ =>
    l.foldl
      (fun acc c =>
        acc.bind fun n =>
          if '0' ≤ c ∧ c ≤ '9' then some (n * 10 + (c.toNat - 48)) else none)
      (some 0)

def goAtoi (s : String) : Option Int :=
  let signDigits : Int × List Char :=
    match s.data with
    | '+' :: r => (1, r)
    | '-' :: r => (-1, r)
    | r => (1, r)
  match parseDigits signDigits.2 with
  | none => none
  | some n =>
    let v : Int := signDigits.1 * n
    if v < -(2 ^ 63) ∨ 2 ^ 63 - 1 < v then none else some v

def wrap64 (x : Int) : Int := (x + 2 ^ 63) % 2 ^ 64 - 2 ^ 63

structure PortOut where
  replies : List Reply
  dialed : Option String
deriving DecidableEq, Repr

def commandPortExecute (s : Session) (enableActiveMode : Bool) (dialOK : Bool)
    (arg : String) : PortOut × Session :=
  if s.epsvAll || !enableActiveMode then
    ({ replies := [(StatusBadArguments, "PORT command is disabled.")],
       dialed := none }, s)
  else
    let args := goSplit arg ','
    if args.length ≠ 6 then
      ({ replies := [(StatusBadArguments, "Syntax error.")], dialed := none }, s)
    else
      match args.mapM fun a => goAtoi (goTrimSpace a) with
      | none =>
        ({ replies := [(StatusBadArguments, "Syntax error.")], dialed := none }, s)
      | some nums =>
        -- port := (nums[4] << 8) + nums[5], 64-bit wrap-around
        let port := wrap64 (wrap64 (nums.getD 4 0 * 256) + nums.getD 5 0)
        if port < 1024 ∨ 65535 < port then
          -- the source passes StatusNotImplemented (502) here, with the
          -- canonical message text of 504
          ({ replies := [(StatusNotImplemented,
              "Command not implemented for that parameter.")], dialed := none }, s)
        else
          let addr := toString (nums.getD 0 0) ++ "." ++ toString (nums.getD 1 0)
            ++ "." ++ toString (nums.getD 2 0) ++ "." ++ toString (nums.getD 3 0)
            ++ ":" ++ toString port
          if dialOK then
            ({ replies := [(StatusCommandOK, "Okay.")], dialed := some addr }, s)
          else
            ({ replies := [(StatusCanNotOpenDataConnection, "Data connection failed.")],
               dialed := some addr }, s)

/-- `commandEprt.Execute`.  `parseIP` abstracts `net.ParseIP` followed by
`To4`/`To16` (Go standard library): given the protocol (`"1"` or `"2"`)
and the address field it yields the printable form of the parsed IP, or
`none` when parsing fails.  The Go code takes `cmd.Arg[:1]` — the first
byte — as the delimiter; the model uses the first rune, which agrees for
the ASCII delimiters EPRT uses. -/
def commandEprtExecute (s : Session) (enableActiveMode : Bool)
    (parseIP : String → String → Option String) (dialOK : Bool)
    (arg : String) : PortOut × Session :=
  if s.epsvAll || !enableActiveMode then
    ({ replies := [(StatusBadArguments, "EPRT command is disabled.")],
       dialed := none }, s)
  else
    if arg.data = [] then
      -- unreachable: the dispatcher rejects an empty argument before
      -- `Execute` (RequireParam); `cmd.Arg[:1]` would panic here.
      ({ replies := [], dialed := none }, s)
    else
      let d := arg.data.headD ' '
      let params := goSplit arg d
      if params.length < 5 then
        ({ replies := [(StatusBadArguments, "Syntax error.")], dialed := none }, s)
      else
        let proto := params.getD 1 ""
        let addr := params.getD 2 ""
        let port := params.getD 3 ""
        if proto ≠ "1" ∧ proto ≠ "2" then
          ({ replies := [(StatusNetworkProtoNotSupported,
              "Network protocol not supported, use (1,2)")], dialed := none }, s)
        else
          match parseIP proto addr with
          | none =>
            ({ replies := [(StatusBadArguments, "Invalid address.")],
               dialed := none }, s)
          | some ipStr =>
            match goAtoi port with
            | none =>
              ({ replies := [(StatusBadArguments, "Invalid port number.")],
                 dialed := none }, s)
            | some portNum =>
              if portNum < 1024 ∨ 65535 < portNum then
                -- the source passes StatusNotImplemented (502) here, with
                -- the canonical message text of 504
                ({ replies := [(StatusNotImplemented,
                    "Command not implemented for that parameter.")],
                   dialed := none }, s)
              else
                let dialAddr := ipStr ++ ":" ++ toString portNum
                if dialOK then
                  ({ replies := [(StatusCommandOK, "Okay.")],
                     dialed := some dialAddr }, s)
                else
                  ({ replies := [(StatusCanNotOpenDataConnection,
                      "Data connection failed.")], dialed := some dialAddr }, s)

/-- **C3**: once `EPSV ALL` has been accepted (`epsvAll` set), every PASV,
PORT and EPRT command is rejected with the syntax-error reply `501`
(within the 5xx range) and neither a passive nor an active data transfer
is created. -/
theorem c3_epsvAll_rejects (s : Session) (ipv4 : Option (Nat × Nat × Nat × Nat))
    (dtRes : PasvDTResult) (enA enA' : Bool) (dialOK dialOK' : Bool)
    (parseIP : String → String → Option String) (argP argE : String)
    (h : s.epsvAll = true) :
    commandPasvExecute s ipv4 dtRes =
      ({ replies := [(StatusBadArguments, "PASV command is disabled.")],
         createdDT := false, panicked := false }, s) ∧
    commandPortExecute s enA dialOK argP =
      ({ replies := [(StatusBadArguments, "PORT command is disabled.")],
         dialed := none }, s) ∧
    commandEprtExecute s enA' parseIP dialOK' argE =
      ({ replies := [(StatusBadArguments, "EPRT command is disabled.")],
         dialed := none }, s) ∧
    500 ≤ StatusBadArguments ∧ StatusBadArguments ≤ 599 := by
  refine ⟨?_, ?_, ?_, by decide, by decide⟩
  · simp [commandPasvExecute, h]
  · simp [commandPortExecute, h]
  · simp [commandEprtExecute, h]

/-- Witness for `c3_epsvAll_rejects` on a concrete session with
`EPSV ALL` set. -/
theorem c3_epsvAll_rejects_witness :
    commandPasvExecute { auth := true, epsvAll := true } (some (1, 2, 3, 4)) (.ok 50000) =
      ({ replies := [(StatusBadArguments, "PASV command is disabled.")],
         createdDT := false, panicked := false }, { auth := true, epsvAll := true }) ∧
    commandPortExecute { auth := true, epsvAll := true } true true "1,2,3,4,200,10" =
      ({ replies := [(StatusBadArguments, "PORT command is disabled.")],
         dialed := none }, { auth := true, epsvAll := true }) := by
  have h := c3_epsvAll_rejects { auth := true, epsvAll := true }
    (some (1, 2, 3, 4)) (.ok 50000) true true true true (fun _ _ => none)
    "1,2,3,4,200,10" "|1|1.2.3.4|2048|" rfl
  exact ⟨h.1, h.2.1⟩

/-- **C4** (code bug): in an authenticated session with active mode enabled
and `EPSV ALL` not issued, a PORT command to endpoint port 22 and an EPRT
command to port 22 (both below 1024) are refused and the client-supplied
endpoint is not dialed, but the refusal carries reply code
`StatusNotImplemented` (502), not the 504 stated by the claim and the spec:
the handlers pass the wrong status constant together with 504's canonical
message text "Command not implemented for that parameter.".  (With the
default `EnableActiveMode = false`, or under `EPSV ALL`, the commands are
instead refused up front with 501 and the bounce-attack check is never
reached.) -/
theorem c4_low_port_refusal_bug :
    commandPortExecute { auth := true } true true "1,2,3,4,0,22" =
      ({ replies := [(StatusNotImplemented,
          "Command not implemented for that parameter.")], dialed := none },
       { auth := true }) ∧
    commandEprtExecute { auth := true } true (fun _ a => some a) true "|1|1.2.3.4|22|" =
      ({ replies := [(StatusNotImplemented,
          "Command not implemented for that parameter.")], dialed := none },
       { auth := true }) ∧
    commandPortExecute { auth := true } false true "1,2,3,4,0,22" =
      ({ replies := [(StatusBadArguments, "PORT command is disabled.")],
         dialed := none }, { auth := true }) ∧
    StatusNotImplemented = 502 ∧
    StatusNotImplemented ≠ StatusNotImplementedParameter ∧
    StatusNotImplementedParameter = 504 := by
  refine ⟨by decide, by decide, by decide, rfl, by decide, rfl⟩

/-! ### Go `path.Clean`, `path.Join` and `ServerConn.buildPath`
(ftp/conn.go; Go standard library `path/path.go`)

`path.Clean` is Go's lexical cleaner: it walks the input, skipping empty
and `.` elements, backtracking one output element on `..` (never below the
root for rooted paths, accumulating leading `..` for relative ones) and
copying other elements separated by single slashes.  The output buffer
`out` is kept in reverse; `dotdot` is the length boundary below which `..`
may not backtrack. -/

/-- The inner backtracking loop of the `..` case: `out.w--` followed by
`for out.w > dotdot && out.index(out.w) != '/' { out.w-- }` — pop
characters until the character just beyond the kept region is `'/'` or the
`dotdot` boundary is reached. -/
def popLoop (dotdot : Nat) : Char → List Char → List Char
  | _, [] => []
  | lastPopped, c :: rest =>
    if rest.length + 1 > dotdot ∧ lastPopped ≠ '/' then popLoop dotdot c rest
    else c :: rest

def popSegment (dotdot : Nat) (out : List Char) : List Char :=
  match out with
  | [] => []
  | c :: rest => popLoop dotdot c rest

def cleanLoop (rooted : Bool) : Nat → List Char → List Char → List Char
  | _, out, [] => out
  | dotdot, out, c :: rs =>
    if c = '/' then
      -- empty path element
      cleanLoop rooted dotdot out rs
    else if c = '.' ∧ (rs = [] ∨ rs.headD ' ' = '/') then
      -- `.` element
      cleanLoop rooted dotdot out rs
    else if c = '.' ∧ rs.headD ' ' = '.' ∧
        (rs.tail = [] ∨ rs.tail.headD ' ' = '/') then
      -- `..` element
      if out.length > dotdot then
        cleanLoop rooted dotdot (popSegment dotdot out) rs.tail
      else if !rooted then
        let out1 := if out.length ≠ 0 then '/' :: out else out
        let out2 := '.' :: '.' :: out1
        cleanLoop rooted out2.length out2 rs.tail
      else
        cleanLoop rooted dotdot out rs.tail
    else
      -- real path element
      let out1 :=
        if (rooted ∧ out.length ≠ 1) ∨ (¬rooted ∧ out.length ≠ 0) then
          '/' :: out
        else out
      cleanLoop rooted dotdot ((c :: rs.takeWhile (· ≠ '/')).reverse ++ out1)
        (rs.dropWhile (· ≠ '/'))
  termination_by _ _ rest => rest.length
  decreasing_by
    all_goals simp only [List.length_cons]
    · omega
    · omega
    · have := List.length_tail rs
      omega
    · have := List.length_tail rs
      omega
    · have := List.length_tail rs
      omega
    · have := (List.dropWhile_sublist (l := rs) (· ≠ '/')).length_le
      omega

def goClean (path : String) : String :=
  if path = "" then "."
  else if path.data.headD ' ' = '/' then
    -- rooted: the output buffer starts `"/"` with `r = dotdot = 1`
    if cleanLoop true 1 ['/'] path.data = [] then "."
    else ⟨(cleanLoop true 1 ['/'] path.data).reverse⟩
  else
    if cleanLoop false 0 [] path.data = [] then "."
    else ⟨(cleanLoop false 0 [] path.data).reverse⟩

/-- Go `path.IsAbs`: `len(path) > 0 && path[0] == '/'`. -/
def goIsAbs (path : String) : Bool := path.data.headD ' ' = '/'

/-- Go `path.Join` for two elements: empty elements are dropped, the rest
joined with `/` and cleaned; all-empty input gives `""`. -/
def goJoin (a b : String) : String :=
  if a = "" ∧ b = "" then ""
  else if a = "" then goClean b
  else goClean (a ++ "/" ++ b)

/-- `ServerConn.buildPath` (ftp/conn.go). -/
def buildPath (pwd path : String) : String :=
  if goIsAbs path then goClean path else goClean (goJoin pwd path)

/-! #### Normal forms of cleaned paths

A cleaned path is `"."`, or a rooted path `/s₁/…/sₙ`, or a relative path
`../../…/s₁/…/sₙ`, where every element `sᵢ` is nonempty, slash-free and
neither `.` nor `..`.  These normal forms let us prove `goClean` idempotent,
which in turn identifies `buildPath` (= `Clean ∘ Join`, a double clean)
with the specification's single "join to the cwd, then clean". -/

def isSeg (s : List Char) : Prop :=
  s ≠ [] ∧ '/' ∉ s ∧ s ≠ ['.'] ∧ s ≠ ['.', '.']

instance (s : List Char) : Decidable (isSeg s) := by
  unfold isSeg
  infer_instance

/-- `interSegs [s₁, …, sₙ] = s₁ ++ "/" ++ … ++ "/" ++ sₙ`. -/
def interSegs : List (List Char) → List Char
  | [] => []
  | [s] => s
  | s :: rest => s ++ '/' :: interSegs rest

def dd : List Char := ['.', '.']

/-- Length of `../../…` with `k` double-dot elements. -/
def ddLen (k : Nat) : Nat := if k = 0 then 0 else 3 * k - 1

theorem interSegs_cons (s : List Char) (rest : List (List Char))
    (h : rest ≠ []) : interSegs (s :: rest) = s ++ '/' :: interSegs rest := by
  cases rest with
  | nil => exact absurd rfl h
  | cons t r => rfl

theorem interSegs_replicate_dd (k : Nat) :
    (interSegs (List.replicate k dd)).length = ddLen k := by
  induction k with
  | zero => rfl
  | succ n ih =>
    cases n with
    | zero => rfl
    | succ m =>
      rw [List.replicate_succ, interSegs_cons _ _ (by simp)]
      simp only [List.length_append, List.length_cons, ih]
      simp only [ddLen, dd, List.length_cons, List.length_nil]
      simp only [Nat.succ_ne_zero, if_false]
      omega

theorem interSegs_append_single (xs : List (List Char)) (s : List Char) :
    interSegs (xs ++ [s]) =
      (if xs = [] then [] else interSegs xs ++ ['/']) ++ s := by
  induction xs with
  | nil => simp [interSegs]
  | cons x rest ih =>
    rw [show (x :: rest) ++ [s] = x :: (rest ++ [s]) from rfl]
    rw [interSegs_cons _ _ (by simp), ih]
    by_cases hr : rest = []
    · subst hr
      simp [interSegs]
    · rw [if_neg hr, if_neg (by simp), interSegs_cons _ _ hr]
      simp

/-! Pop-loop lemmas: `popSegment` removes exactly the last path element
and its separating slash (stopping at the `dotdot` boundary). -/

theorem popLoop_append (dotdot : Nat) (u t : List Char)
    (hu : ∀ c ∈ u, c ≠ '/') (last : Char) (hl : last ≠ '/')
    (ht : dotdot ≤ t.length + 1) :
    popLoop dotdot last (u ++ '/' :: t) =
      if t.length + 1 > dotdot then t else '/' :: t := by
  induction u generalizing last with
  | nil =>
    simp only [List.nil_append, popLoop]
    by_cases hgt : t.length + 1 > dotdot
    · rw [if_pos ⟨hgt, hl⟩, if_pos hgt]
      cases t with
      | nil => rfl
      | cons c rest => simp [popLoop]
    · rw [if_neg (by tauto), if_neg hgt]
  | cons c u' ih =>
    simp only [List.cons_append, popLoop]
    rw [if_pos]
    · exact ih (fun x hx => hu x (by simp [hx])) c (hu c (by simp))
    · refine ⟨?_, hl⟩
      simp only [List.append_eq, List.length_append, List.length_cons]
      omega

theorem popLoop_all (u : List Char) (hu : ∀ c ∈ u, c ≠ '/')
    (last : Char) (hl : last ≠ '/') : popLoop 0 last u = [] := by
  induction u generalizing last with
  | nil => rfl
  | cons c u' ih =>
    simp only [popLoop]
    rw [if_pos ⟨by omega, hl⟩]
    exact ih (fun x hx => hu x (by simp [hx])) c (hu c (by simp))

theorem popSegment_spec (dotdot : Nat) (s t : List Char) (hs : s ≠ [])
    (hs2 : ∀ c ∈ s, c ≠ '/') (ht : dotdot ≤ t.length + 1) :
    popSegment dotdot (s.reverse ++ '/' :: t) =
      if t.length + 1 > dotdot then t else '/' :: t := by
  cases hrev : s.reverse with
  | nil => exact absurd (by simpa using congrArg List.reverse hrev) hs
  | cons c u =>
    have hmem : ∀ x ∈ c :: u, x ∈ s := by
      intro x hx
      have : x ∈ s.reverse := hrev ▸ hx
      simpa using this
    simp only [List.cons_append, popSegment]
    exact popLoop_append dotdot u t
      (fun x hx => hs2 x (hmem x (by simp [hx]))) c
      (hs2 c (hmem c (by simp))) ht

theorem cleanLoop_nil (rooted : Bool) (dotdot : Nat) (out : List Char) :
    cleanLoop rooted dotdot out [] = out := by
  simp [cleanLoop]

theorem cleanLoop_slash (rooted : Bool) (dotdot : Nat) (out rs : List Char) :
    cleanLoop rooted dotdot out ('/' :: rs) = cleanLoop rooted dotdot out rs := by
  rw [cleanLoop]
  simp

theorem cleanLoop_dotCase (rooted : Bool) (dotdot : Nat) (out rs : List Char)
    (h : rs = [] ∨ rs.headD ' ' = '/') :
    cleanLoop rooted dotdot out ('.' :: rs) = cleanLoop rooted dotdot out rs := by
  rw [cleanLoop]
  rw [if_neg (by decide), if_pos ⟨rfl, h⟩]

theorem cleanLoop_ddCase (rooted : Bool) (dotdot : Nat) (out tail : List Char)
    (htail : tail = [] ∨ tail.headD ' ' = '/') :
    cleanLoop rooted dotdot out ('.' :: '.' :: tail) =
      if out.length > dotdot then
        cleanLoop rooted dotdot (popSegment dotdot out) tail
      else if !rooted then
        cleanLoop rooted
          ('.' :: '.' :: (if out.length ≠ 0 then '/' :: out else out)).length
          ('.' :: '.' :: (if out.length ≠ 0 then '/' :: out else out)) tail
      else cleanLoop rooted dotdot out tail := by
  rw [cleanLoop]
  rw [if_neg (by decide),
    if_neg (by rintro ⟨-, h | h⟩ <;> simp at h),
    if_pos ⟨rfl, by simp, by simpa using htail⟩]
  simp only [List.tail_cons]

theorem cleanLoop_default (rooted : Bool) (dotdot : Nat) (out : List Char)
    (c : Char) (rs : List Char) (h1 : ¬ c = '/')
    (h2 : ¬ (c = '.' ∧ (rs = [] ∨ rs.headD ' ' = '/')))
    (h3 : ¬ (c = '.' ∧ rs.headD ' ' = '.' ∧
      (rs.tail = [] ∨ rs.tail.headD ' ' = '/'))) :
    cleanLoop rooted dotdot out (c :: rs) =
      cleanLoop rooted dotdot
        ((c :: rs.takeWhile (· ≠ '/')).reverse ++
          (if (rooted ∧ out.length ≠ 1) ∨ (¬rooted ∧ out.length ≠ 0) then
            '/' :: out
          else out))
        (rs.dropWhile (· ≠ '/')) := by
  rw [cleanLoop]
  rw [if_neg h1, if_neg h2, if_neg h3]

theorem popSegment_noSep (s : List Char) (hs : s ≠ [])
    (hs2 : ∀ c ∈ s, c ≠ '/') : popSegment 0 s.reverse = [] := by
  cases hrev : s.reverse with
  | nil => exact absurd (by simpa using congrArg List.reverse hrev) hs
  | cons c u =>
    have hmem : ∀ x ∈ c :: u, x ∈ s := by
      intro x hx
      have : x ∈ s.reverse := hrev ▸ hx
      simpa using this
    simp only [popSegment]
    exact popLoop_all u (fun x hx => hs2 x (hmem x (by simp [hx]))) c
      (hs2 c (hmem c (by simp)))

/-- One step of the copy phase on the non-reversed buffer: append the
element `s`, preceded by a slash unless the buffer is at the start of the
path (`"/"` when rooted, empty when relative). -/
def glueOne (rooted : Bool) (buf s : List Char) : List Char :=
  if (rooted ∧ buf.length ≠ 1) ∨ (¬rooted ∧ buf.length ≠ 0) then
    buf ++ '/' :: s
  else buf ++ s

theorem cleanLoop_oneSeg (rooted : Bool) (dotdot : Nat) (buf : List Char)
    (c : Char) (s' : List Char) (hseg : isSeg (c :: s')) (tail : List Char)
    (htail : tail = [] ∨ tail.headD ' ' = '/') :
    cleanLoop rooted dotdot buf.reverse ((c :: s') ++ tail) =
      cleanLoop rooted dotdot (glueOne rooted buf (c :: s')).reverse tail := by
  obtain ⟨-, hslash, hdot, hdd⟩ := hseg
  have hc : ¬ c = '/' := by
    intro h
    exact hslash (by simp [h])
  have hs' : ∀ a ∈ s', decide (a ≠ '/') = true := by
    intro a ha
    simp only [decide_eq_true_eq]
    intro h
    exact hslash (List.mem_cons_of_mem c (h ▸ ha))
  have htake : (s' ++ tail).takeWhile (· ≠ '/') = s' := by
    rw [List.takeWhile_append_of_pos hs']
    rcases htail with h | h
    · simp [h]
    · cases tail with
      | nil => simp
      | cons t ts =>
        simp only [List.headD_cons] at h
        simp [h]
  have hdrop : (s' ++ tail).dropWhile (· ≠ '/') = tail := by
    rw [List.dropWhile_append_of_pos hs']
    rcases htail with h | h
    · simp [h]
    · cases tail with
      | nil => simp
      | cons t ts =>
        simp only [List.headD_cons] at h
        simp [h]
  rw [List.cons_append, cleanLoop_default rooted dotdot buf.reverse c
    (s' ++ tail) hc ?_ ?_]
  · rw [htake, hdrop]
    congr 1
    simp only [glueOne, List.length_reverse]
    by_cases hcond : (rooted ∧ buf.length ≠ 1) ∨ (¬rooted ∧ buf.length ≠ 0)
    · rw [if_pos hcond, if_pos hcond]
      simp
    · rw [if_neg hcond, if_neg hcond]
      simp
  · rintro ⟨rfl, h⟩
    cases s' with
    | nil => exact hdot rfl
    | cons a as =>
      rcases h with h | h
      · simp at h
      · simp only [List.cons_append, List.headD_cons] at h
        subst h
        exact hslash (by simp)
  · rintro ⟨rfl, h2, h3⟩
    cases s' with
    | nil => exact hdot rfl
    | cons a as =>
      simp only [List.cons_append, List.headD_cons] at h2
      subst h2
      cases as with
      | nil => exact hdd rfl
      | cons b bs =>
        simp only [List.cons_append, List.tail_cons] at h3
        rcases h3 with h | h
        · simp at h
        · simp only [List.cons_append, List.headD_cons] at h
          subst h
          exact hslash (by simp)

theorem interSegs_append (A B : List (List Char)) (hA : A ≠ []) (hB : B ≠ []) :
    interSegs (A ++ B) = interSegs A ++ '/' :: interSegs B := by
  induction A with
  | nil => exact absurd rfl hA
  | cons a arest ih =>
    cases harest : arest with
    | nil =>
      subst harest
      rw [List.cons_append, interSegs_cons _ _ (by simpa using hB)]
      simp [interSegs]
    | cons x xs =>
      subst harest
      rw [List.cons_append, interSegs_cons _ _ (by simp),
        interSegs_cons _ _ (by simp), ih (by simp)]
      simp

theorem interSegs_eq_nil_iff (segs : List (List Char))
    (h : ∀ s ∈ segs, s ≠ []) : interSegs segs = [] ↔ segs = [] := by
  constructor
  · intro hs
    cases segs with
    | nil => rfl
    | cons s rest =>
      exfalso
      cases rest with
      | nil => exact h s (by simp) hs
      | cons x xs =>
        rw [interSegs_cons _ _ (by simp)] at hs
        rcases List.append_eq_nil.mp hs with ⟨h1, h2⟩
        simp at h2
  · rintro rfl
    rfl

theorem interSegs_dd_segs_ne_nil (k : Nat) (segs : List (List Char))
    (h : ∀ s ∈ segs, isSeg s) (hne : ¬ (k = 0 ∧ segs = [])) :
    interSegs (List.replicate k dd ++ segs) ≠ [] := by
  intro hnil
  rw [interSegs_eq_nil_iff] at hnil
  · rcases List.append_eq_nil.mp hnil with ⟨h1, h2⟩
    exact hne ⟨by simpa using h1, h2⟩
  · intro s hs
    rcases List.mem_append.mp hs with hmem | hmem
    · have := List.eq_of_mem_replicate hmem
      subst this
      simp [dd]
    · exact (h s hmem).1

theorem takeWhile_eq_nil_iff_cases (rs : List Char) :
    rs.takeWhile (· ≠ '/') = [] ↔ (rs = [] ∨ rs.headD ' ' = '/') := by
  cases rs with
  | nil => simp
  | cons c t =>
    by_cases hc : c = '/'
    · simp [hc]
    · simp [hc, List.takeWhile_cons]

theorem cleanLoop_copy (rooted : Bool) (segs : List (List Char))
    (hsegs : ∀ s ∈ segs, isSeg s) (dotdot : Nat) (buf : List Char) :
    cleanLoop rooted dotdot buf.reverse (interSegs segs) =
      (segs.foldl (glueOne rooted) buf).reverse := by
  induction segs generalizing buf with
  | nil => exact cleanLoop_nil rooted dotdot buf.reverse
  | cons s rest ih =>
    have hs : isSeg s := hsegs s (by simp)
    obtain ⟨c, s', rfl⟩ : ∃ c s', s = c :: s' := by
      cases s with
      | nil => exact absurd rfl hs.1
      | cons c s' => exact ⟨c, s', rfl⟩
    cases hrest : rest with
    | nil =>
      have : interSegs [c :: s'] = (c :: s') ++ [] := by simp [interSegs]
      rw [this, cleanLoop_oneSeg rooted dotdot buf c s' hs [] (Or.inl rfl),
        cleanLoop_nil]
      simp [List.foldl]
    | cons r2 rrest =>
      rw [← hrest]
      rw [interSegs_cons _ _ (by simp [hrest]),
        show (c :: s') ++ '/' :: interSegs rest
          = (c :: s') ++ ('/' :: interSegs rest) from rfl,
        cleanLoop_oneSeg rooted dotdot buf c s' hs ('/' :: interSegs rest)
          (Or.inr (by simp)),
        cleanLoop_slash]
      rw [ih (fun x hx => hsegs x (by simp [hx]))]
      rfl

/-- The cleaner's loop invariant: the (reversed) output buffer is a normal
path — when rooted, `/s₁/…/sₙ` with `dotdot = 1`; when relative,
`../../…/s₁/…/sₙ` with `k` leading double-dots and `dotdot` marking the
end of the double-dot prefix. -/
def CleanSt (rooted : Bool) (out : List Char) (dotdot : Nat) : Prop :=
  if rooted then
    dotdot = 1 ∧ ∃ segs : List (List Char), (∀ s ∈ segs, isSeg s) ∧
      out = ('/' :: interSegs segs).reverse
  else
    ∃ (k : Nat) (segs : List (List Char)), (∀ s ∈ segs, isSeg s) ∧
      out = (interSegs (List.replicate k dd ++ segs)).reverse ∧
      dotdot = ddLen k

theorem interSegs_length_pos (segs : List (List Char)) (hne : segs ≠ [])
    (h : ∀ s ∈ segs, s ≠ []) : 0 < (interSegs segs).length := by
  rcases List.length_pos.mpr hne with -
  by_contra hc
  push_neg at hc
  have : interSegs segs = [] := by
    cases hl : interSegs segs with
    | nil => rfl
    | cons x xs => rw [hl] at hc; simp at hc
  exact hne ((interSegs_eq_nil_iff segs h).mp this)

theorem interSegs_dd_length_lt (k : Nat) (segs : List (List Char))
    (hsegs : ∀ s ∈ segs, isSeg s) (hne : segs ≠ []) :
    ddLen k < (interSegs (List.replicate k dd ++ segs)).length := by
  cases hk : k with
  | zero =>
    simp only [List.replicate, List.nil_append]
    have := interSegs_length_pos segs hne (fun s hs => (hsegs s hs).1)
    simp [ddLen]
    omega
  | succ n =>
    rw [interSegs_append _ _ (by simp) hne]
    have h1 := interSegs_replicate_dd (n + 1)
    have h2 := interSegs_length_pos segs hne (fun s hs => (hsegs s hs).1)
    simp only [List.length_append, List.length_cons]
    omega

theorem CleanSt_pop (rooted : Bool) (out : List Char) (dotdot : Nat)
    (hst : CleanSt rooted out dotdot) (hlen : out.length > dotdot) :
    CleanSt rooted (popSegment dotdot out) dotdot := by
  cases rooted with
  | true =>
    obtain ⟨hdot, segs, hsegs, hout⟩ := hst
    subst hdot
    have hne : segs ≠ [] := by
      rintro rfl
      rw [hout] at hlen
      simp [interSegs] at hlen
    rcases List.eq_nil_or_concat' segs with rfl | ⟨init, last, rfl⟩
    · exact absurd rfl hne
    have hlast : isSeg last := hsegs last (by simp)
    rcases hlast with ⟨hl1, hl2, -, -⟩
    have hl2' : ∀ c ∈ last, c ≠ '/' := by
      intro c hc h
      exact hl2 (h ▸ hc)
    rw [hout, interSegs_append_single]
    by_cases hinit : init = []
    · subst hinit
      rw [if_pos rfl]
      simp only [List.nil_append]
      have : ('/' :: last).reverse = last.reverse ++ '/' :: ([] : List Char) := by
        simp
      rw [this, popSegment_spec 1 last [] hl1 hl2' (by simp)]
      rw [if_neg (by simp)]
      exact ⟨rfl, [], by simp, by simp [interSegs]⟩
    · rw [if_neg hinit]
      have hshape : ('/' :: ((interSegs init ++ ['/']) ++ last)).reverse =
          last.reverse ++ '/' :: ('/' :: interSegs init).reverse := by
        simp
      rw [hshape, popSegment_spec 1 last _ hl1 hl2' (by simp)]
      rw [if_pos (by simp)]
      exact ⟨rfl, init, fun s hs => hsegs s (by simp [hs]), rfl⟩
  | false =>
    obtain ⟨k, segs, hsegs, hout, hdot⟩ := hst
    subst hdot
    have hne : segs ≠ [] := by
      rintro rfl
      rw [hout] at hlen
      simp only [List.length_reverse, List.append_nil] at hlen
      rw [interSegs_replicate_dd] at hlen
      omega
    rcases List.eq_nil_or_concat' segs with rfl | ⟨init, last, rfl⟩
    · exact absurd rfl hne
    have hlast : isSeg last := hsegs last (by simp)
    rcases hlast with ⟨hl1, hl2, -, -⟩
    have hl2' : ∀ c ∈ last, c ≠ '/' := by
      intro c hc h
      exact hl2 (h ▸ hc)
    rw [hout, show List.replicate k dd ++ (init ++ [last])
        = (List.replicate k dd ++ init) ++ [last] by simp,
      interSegs_append_single]
    by_cases hpre : List.replicate k dd ++ init = []
    · rcases List.append_eq_nil.mp hpre with ⟨hk0, rfl⟩
      have hk0' : k = 0 := by simpa using hk0
      subst hk0'
      rw [if_pos hpre]
      simp only [List.nil_append]
      rw [show ddLen 0 = 0 from rfl, popSegment_noSep last hl1 hl2']
      exact ⟨0, [], by simp, by simp [interSegs], by simp [ddLen]⟩
    · rw [if_neg hpre]
      have hshape : ((interSegs (List.replicate k dd ++ init) ++ ['/']) ++ last).reverse =
          last.reverse ++ '/' :: (interSegs (List.replicate k dd ++ init)).reverse := by
        simp
      have hlenpre : ddLen k ≤ (interSegs (List.replicate k dd ++ init)).length := by
        by_cases hinit : init = []
        · subst hinit
          rw [List.append_nil, interSegs_replicate_dd]
        · by_cases hk : k = 0
          · subst hk
            simp [ddLen]
          · rw [interSegs_append _ _ (by simpa using hk) hinit]
            have := interSegs_replicate_dd k
            simp only [List.length_append, List.length_cons]
            omega
      rw [hshape, popSegment_spec (ddLen k) last _ hl1 hl2'
        (by simp only [List.length_reverse]; omega)]
      rw [if_pos (by simp only [List.length_reverse]; omega)]
      exact ⟨k, init, fun s hs => hsegs s (by simp [hs]), rfl, rfl⟩

theorem CleanSt_ddAppend (out : List Char) (dotdot : Nat)
    (hst : CleanSt false out dotdot) (hlen : ¬ out.length > dotdot) :
    CleanSt false ('.' :: '.' :: (if out.length ≠ 0 then '/' :: out else out))
      ('.' :: '.' :: (if out.length ≠ 0 then '/' :: out else out)).length := by
  obtain ⟨k, segs, hsegs, hout, hdot⟩ := hst
  subst hdot
  have hsegnil : segs = [] := by
    by_contra hne
    exact hlen (hout ▸ by
      simpa using interSegs_dd_length_lt k segs hsegs hne)
  subst hsegnil
  rw [List.append_nil] at hout
  subst hout
  simp only [List.length_reverse, interSegs_replicate_dd]
  by_cases hk : k = 0
  · subst hk
    rw [if_neg (by simp [ddLen])]
    refine ⟨1, [], by simp, ?_, ?_⟩
    · simp [interSegs, dd]
    · simp [interSegs, dd, ddLen]
  · rw [if_pos (by simp only [ddLen, if_neg hk]; omega)]
    refine ⟨k + 1, [], by simp, ?_, ?_⟩
    · rw [List.append_nil, List.replicate_succ', interSegs_append_single,
        if_neg (by simpa using hk)]
      simp [dd]
    · simp only [List.length_cons, List.length_reverse,
        interSegs_replicate_dd, ddLen, if_neg hk, if_neg (Nat.succ_ne_zero k)]
      omega

theorem takeWhile_eq_cons_iff (rs X : List Char) (c : Char)
    (h : rs.takeWhile (· ≠ '/') = c :: X) :
    ∃ rs', rs = c :: rs' ∧ rs'.takeWhile (· ≠ '/') = X := by
  cases rs with
  | nil => simp at h
  | cons a t =>
    by_cases ha : a = '/'
    · rw [List.takeWhile_cons, if_neg (by simp [ha])] at h
      simp at h
    · rw [List.takeWhile_cons, if_pos (by simp [ha])] at h
      injection h with hac htw
      subst hac
      exact ⟨t, rfl, htw⟩

theorem CleanSt_push (rooted : Bool) (out : List Char) (dotdot : Nat)
    (hst : CleanSt rooted out dotdot) (c : Char) (rs : List Char)
    (h1 : ¬ c = '/')
    (h2 : ¬ (c = '.' ∧ (rs = [] ∨ rs.headD ' ' = '/')))
    (h3 : ¬ (c = '.' ∧ rs.headD ' ' = '.' ∧
      (rs.tail = [] ∨ rs.tail.headD ' ' = '/'))) :
    CleanSt rooted
      ((c :: rs.takeWhile (· ≠ '/')).reverse ++
        (if (rooted ∧ out.length ≠ 1) ∨ (¬rooted ∧ out.length ≠ 0) then
          '/' :: out
        else out)) dotdot := by
  set s : List Char := c :: rs.takeWhile (· ≠ '/') with hs
  have hseg : isSeg s := by
    refine ⟨by simp [hs], ?_, ?_, ?_⟩
    · intro hmem
      rw [hs] at hmem
      rcases List.mem_cons.mp hmem with h | h
      · exact h1 h.symm
      · have := List.mem_takeWhile_imp h
        simp at this
    · intro hdot
      rw [hs] at hdot
      injection hdot with hc htw
      subst hc
      exact h2 ⟨rfl, (takeWhile_eq_nil_iff_cases rs).mp htw⟩
    · intro hdd
      rw [hs] at hdd
      injection hdd with hc htw
      subst hc
      obtain ⟨rs', hrs, htw'⟩ := takeWhile_eq_cons_iff rs _ _ htw
      refine h3 ⟨rfl, by simp [hrs], ?_⟩
      rw [hrs]
      simpa using (takeWhile_eq_nil_iff_cases rs').mp htw'
  clear_value s
  cases rooted with
  | true =>
    obtain ⟨hdot, segs, hsegs, hout⟩ := hst
    subst hdot
    refine ⟨rfl, ?_⟩
    by_cases hsegnil : segs = []
    · subst hsegnil
      rw [hout]
      rw [if_neg (by simp [interSegs])]
      exact ⟨[s], by simp [hseg], by simp [interSegs]⟩
    · rw [hout, if_pos (Or.inl ⟨rfl, by
        simp only [List.length_reverse, List.length_cons]
        have := interSegs_length_pos segs hsegnil (fun x hx => (hsegs x hx).1)
        omega⟩)]
      refine ⟨segs ++ [s], ?_, ?_⟩
      · intro x hx
        rcases List.mem_append.mp hx with h | h
        · exact hsegs x h
        · simp at h
          subst h
          exact hseg
      · rw [interSegs_append_single, if_neg hsegnil]
        simp
  | false =>
    obtain ⟨k, segs, hsegs, hout, hdot⟩ := hst
    by_cases hpre : List.replicate k dd ++ segs = []
    · rcases List.append_eq_nil.mp hpre with ⟨hk0, rfl⟩
      rw [hout, hpre]
      rw [if_neg (by simp [interSegs])]
      exact ⟨k, [s], by simp [hseg], by simp [hk0, interSegs], hdot⟩
    · rw [hout, if_pos (Or.inr ⟨by simp, by
        simp only [List.length_reverse]
        have := interSegs_length_pos _ hpre (by
          intro x hx
          rcases List.mem_append.mp hx with h | h
          · have := List.eq_of_mem_replicate h
            subst this
            simp [dd]
          · exact (hsegs x h).1)
        omega⟩)]
      refine ⟨k, segs ++ [s], ?_, ?_, hdot⟩
      · intro x hx
        rcases List.mem_append.mp hx with h | h
        · exact hsegs x h
        · simp at h
          subst h
          exact hseg
      · rw [show List.replicate k dd ++ (segs ++ [s])
            = (List.replicate k dd ++ segs) ++ [s] by simp,
          interSegs_append_single, if_neg hpre]
        simp

/-- The loop invariant is preserved by the whole run of the cleaner. -/
theorem cleanLoop_normal (rooted : Bool) (dotdot : Nat) (out rest : List Char)
    (hst : CleanSt rooted out dotdot) :
    ∃ d', CleanSt rooted (cleanLoop rooted dotdot out rest) d' := by
  induction dotdot, out, rest using cleanLoop.induct rooted with
  | case1 dotdot out =>
    exact ⟨dotdot, by rwa [cleanLoop_nil]⟩
  | case2 dotdot out rs ih =>
    rw [cleanLoop_slash]
    exact ih hst
  | case3 dotdot out c rs h1 hcase ih =>
    obtain ⟨rfl, hor⟩ := hcase
    rw [cleanLoop_dotCase _ _ _ _ hor]
    exact ih hst
  | case4 dotdot out c rs h1 h2 hcase hlen ih =>
    obtain ⟨rfl, hh, ht⟩ := hcase
    obtain ⟨tail, rfl⟩ : ∃ tail, rs = '.' :: tail := by
      cases rs with
      | nil => simp at hh
      | cons a t =>
        simp only [List.headD_cons] at hh
        exact ⟨t, by rw [hh]⟩
    rw [cleanLoop_ddCase rooted dotdot out tail (by simpa using ht),
      if_pos hlen]
    exact ih (CleanSt_pop rooted out dotdot hst hlen)
  | case5 dotdot out c rs h1 h2 hcase hlen hrooted out1 out2 ih =>
    obtain ⟨rfl, hh, ht⟩ := hcase
    obtain ⟨tail, rfl⟩ : ∃ tail, rs = '.' :: tail := by
      cases rs with
      | nil => simp at hh
      | cons a t =>
        simp only [List.headD_cons] at hh
        exact ⟨t, by rw [hh]⟩
    have hroot : rooted = false := by simpa using hrooted
    subst hroot
    rw [cleanLoop_ddCase false dotdot out tail (by simpa using ht),
      if_neg hlen]
    simp only [Bool.not_false, if_true]
    exact ih (CleanSt_ddAppend out dotdot hst hlen)
  | case6 dotdot out c rs h1 h2 hcase hlen hrooted ih =>
    obtain ⟨rfl, hh, ht⟩ := hcase
    obtain ⟨tail, rfl⟩ : ∃ tail, rs = '.' :: tail := by
      cases rs with
      | nil => simp at hh
      | cons a t =>
        simp only [List.headD_cons] at hh
        exact ⟨t, by rw [hh]⟩
    have hroot : rooted = true := by
      cases rooted
      · simp at hrooted
      · rfl
    subst hroot
    rw [cleanLoop_ddCase true dotdot out tail (by simpa using ht),
      if_neg hlen]
    simp only [Bool.not_true, if_false]
    exact ih hst
  | case7 dotdot out c rs h1 h2 h3 out1 ih =>
    rw [cleanLoop_default rooted dotdot out c rs h1 h2 h3]
    exact ih (CleanSt_push rooted out dotdot hst c rs h1 h2 h3)

theorem foldl_glueOne_false (segs : List (List Char)) :
    ∀ pre : List (List Char), (∀ s ∈ pre, s ≠ []) → (∀ s ∈ segs, s ≠ []) →
      List.foldl (glueOne false) (interSegs pre) segs = interSegs (pre ++ segs) := by
  induction segs with
  | nil => intro pre _ _; simp
  | cons s rest ih =>
    intro pre hpre hsegs
    rw [List.foldl_cons]
    have hstep : glueOne false (interSegs pre) s = interSegs (pre ++ [s]) := by
      rw [interSegs_append_single]
      by_cases hp : pre = []
      · subst hp
        rw [if_pos rfl]
        simp [glueOne, interSegs]
      · have hlen : (interSegs pre).length ≠ 0 := by
          have := interSegs_length_pos pre hp hpre
          omega
        rw [if_neg hp, glueOne, if_pos (Or.inr ⟨by simp, hlen⟩)]
        simp
    rw [hstep,
      ih (pre ++ [s])
        (by
          intro x hx
          rcases List.mem_append.mp hx with h | h
          · exact hpre x h
          · simp at h
            subst h
            exact hsegs _ (by simp))
        (fun x hx => hsegs x (by simp [hx]))]
    simp

theorem foldl_glueOne_true (segs : List (List Char)) :
    ∀ pre : List (List Char), (∀ s ∈ pre, s ≠ []) → (∀ s ∈ segs, s ≠ []) →
      List.foldl (glueOne true) ('/' :: interSegs pre) segs =
        '/' :: interSegs (pre ++ segs) := by
  induction segs with
  | nil => intro pre _ _; simp
  | cons s rest ih =>
    intro pre hpre hsegs
    rw [List.foldl_cons]
    have hstep : glueOne true ('/' :: interSegs pre) s =
        '/' :: interSegs (pre ++ [s]) := by
      rw [interSegs_append_single]
      by_cases hp : pre = []
      · subst hp
        rw [if_pos rfl]
        simp [glueOne, interSegs]
      · have hlen : (interSegs pre).length ≠ 0 := by
          have := interSegs_length_pos pre hp hpre
          omega
        rw [if_neg hp, glueOne,
          if_pos (Or.inl ⟨rfl, by simp only [List.length_cons]; omega⟩)]
        simp
    rw [hstep,
      ih (pre ++ [s])
        (by
          intro x hx
          rcases List.mem_append.mp hx with h | h
          · exact hpre x h
          · simp at h
            subst h
            exact hsegs _ (by simp))
        (fun x hx => hsegs x (by simp [hx]))]
    simp

theorem data_mk (l : List Char) : (⟨l⟩ : String).data = l := rfl

/-- Processing a `../../…` prefix from a matching relative state appends
the double-dot elements one by one. -/
theorem cleanLoop_dds (k : Nat) :
    ∀ (j : Nat) (segs : List (List Char)), (∀ s ∈ segs, isSeg s) →
      cleanLoop false (ddLen j) (interSegs (List.replicate j dd)).reverse
          (interSegs (List.replicate k dd ++ segs)) =
        (List.foldl (glueOne false) (interSegs (List.replicate (j + k) dd))
          segs).reverse := by
  induction k with
  | zero =>
    intro j segs hsegs
    rw [List.replicate, List.nil_append, cleanLoop_copy false segs hsegs,
      Nat.add_zero]
  | succ n ih =>
    intro j segs hsegs
    have hdd : List.replicate (n + 1) dd ++ segs = dd :: (List.replicate n dd ++ segs) := by
      rw [List.replicate_succ]
      rfl
    rw [hdd]
    by_cases hrest : List.replicate n dd ++ segs = []
    · rcases List.append_eq_nil.mp hrest with ⟨h1, rfl⟩
      have hn : n = 0 := by simpa using h1
      subst hn
      rw [hrest]
      rw [show interSegs [dd] = ('.' :: '.' :: ([] : List Char)) from rfl]
      rw [cleanLoop_ddCase false _ _ _ (Or.inl rfl)]
      rw [if_neg (by
        simp only [List.length_reverse, interSegs_replicate_dd]
        omega)]
      simp only [Bool.not_false, if_true, cleanLoop_nil]
      rw [List.foldl_nil]
      by_cases hj : j = 0
      · subst hj
        rfl
      · rw [show j + (0 + 1) = j + 1 from by omega]
        have hlen' : ((interSegs (List.replicate j dd)).reverse).length ≠ 0 := by
          rw [List.length_reverse, interSegs_replicate_dd]
          simp only [ddLen, if_neg hj]
          omega
        rw [if_pos hlen']
        rw [List.replicate_succ', interSegs_append_single,
          if_neg (by simp only [ne_eq, List.replicate_eq_nil_iff]; exact hj)]
        simp [dd]
    · rw [show interSegs (dd :: (List.replicate n dd ++ segs))
          = '.' :: '.' :: ('/' :: interSegs (List.replicate n dd ++ segs)) from by
        rw [interSegs_cons _ _ hrest]
        rfl]
      rw [cleanLoop_ddCase false _ _ _ (Or.inr (by simp))]
      rw [if_neg (by
        simp only [List.length_reverse, interSegs_replicate_dd]
        omega)]
      simp only [Bool.not_false, if_true, cleanLoop_slash]
      have hout2 : ('.' :: '.' ::
          (if (interSegs (List.replicate j dd)).reverse.length ≠ 0 then
            '/' :: (interSegs (List.replicate j dd)).reverse
          else (interSegs (List.replicate j dd)).reverse)) =
          (interSegs (List.replicate (j + 1) dd)).reverse := by
        by_cases hj : j = 0
        · subst hj
          rw [if_neg (by simp [interSegs])]
          rfl
        · rw [if_pos (by
            simp only [List.length_reverse, interSegs_replicate_dd, ddLen,
              if_neg hj]
            omega)]
          rw [show j + 1 = j + 1 from rfl, List.replicate_succ',
            interSegs_append_single, if_neg (by simpa using hj)]
          simp [dd]
      rw [hout2]
      have hlen2 : (interSegs (List.replicate (j + 1) dd)).reverse.length
          = ddLen (j + 1) := by
        simp [interSegs_replicate_dd]
      rw [hlen2, ih (j + 1) segs hsegs,
        show j + 1 + n = j + (n + 1) by omega]

theorem headD_interSegs_cons (s : List Char) (rest : List (List Char))
    (hs : s ≠ []) :
    (interSegs (s :: rest)).headD ' ' = s.headD ' ' := by
  cases s with
  | nil => exact absurd rfl hs
  | cons c s' =>
    cases rest with
    | nil => rfl
    | cons r rrest =>
      rw [interSegs_cons _ _ (by simp)]
      rfl

theorem goClean_empty : goClean "" = "." := by
  unfold goClean
  rw [if_pos rfl]

theorem goClean_dot : goClean "." = "." := by
  have hdata : ("." : String).data = ['.'] := rfl
  have hrun : cleanLoop false 0 [] (("." : String).data) = [] := by
    rw [hdata, cleanLoop_dotCase _ _ _ _ (Or.inl rfl), cleanLoop_nil]
  unfold goClean
  rw [if_neg (by decide), if_neg (by rw [hdata]; decide), hrun, if_pos rfl]

theorem goClean_rooted_normal (segs : List (List Char))
    (hsegs : ∀ s ∈ segs, isSeg s) :
    goClean ⟨'/' :: interSegs segs⟩ = ⟨'/' :: interSegs segs⟩ := by
  have hne : (⟨'/' :: interSegs segs⟩ : String) ≠ "" := by
    intro h
    simpa using congrArg String.data h
  have hrun : cleanLoop true 1 ['/'] ('/' :: interSegs segs) =
      ('/' :: interSegs segs).reverse := by
    rw [cleanLoop_slash]
    have h := cleanLoop_copy true segs hsegs 1 ['/']
    simp only [List.reverse_cons, List.reverse_nil, List.nil_append] at h
    rw [h]
    have h2 := foldl_glueOne_true segs [] (by simp)
      (fun s hs => (hsegs s hs).1)
    simp only [interSegs, List.nil_append] at h2
    rw [h2]
  unfold goClean
  rw [if_neg hne, data_mk, if_pos (by simp), hrun, if_neg (by simp)]
  simp

theorem goClean_rel_normal (k : Nat) (segs : List (List Char))
    (hsegs : ∀ s ∈ segs, isSeg s) (hne : ¬ (k = 0 ∧ segs = [])) :
    goClean ⟨interSegs (List.replicate k dd ++ segs)⟩ =
      ⟨interSegs (List.replicate k dd ++ segs)⟩ := by
  have hLne : interSegs (List.replicate k dd ++ segs) ≠ [] :=
    interSegs_dd_segs_ne_nil k segs hsegs hne
  have hsne : (⟨interSegs (List.replicate k dd ++ segs)⟩ : String) ≠ "" := by
    intro h
    exact hLne (by simpa using congrArg String.data h)
  have hhead : ¬ (interSegs (List.replicate k dd ++ segs)).headD ' ' = '/' := by
    cases hk : k with
    | zero =>
      cases hsg : segs with
      | nil => exact absurd ⟨hk, hsg⟩ hne
      | cons s rest =>
        simp only [List.replicate, List.nil_append]
        rw [headD_interSegs_cons s rest (hsegs s (by simp [hsg])).1]
        have hs := hsegs s (by simp [hsg])
        cases s with
        | nil => exact absurd rfl hs.1
        | cons c s' =>
          simp only [List.headD_cons]
          intro hcs
          exact hs.2.1 (by simp [hcs])
    | succ n =>
      rw [List.replicate_succ, List.cons_append,
        headD_interSegs_cons dd _ (by simp [dd])]
      decide
  have hrun : cleanLoop false 0 [] (interSegs (List.replicate k dd ++ segs)) =
      (interSegs (List.replicate k dd ++ segs)).reverse := by
    have h := cleanLoop_dds k 0 segs hsegs
    simp only [interSegs, List.reverse_nil, Nat.zero_add,
      show ddLen 0 = 0 from rfl] at h
    rw [h]
    rw [foldl_glueOne_false segs (List.replicate k dd)
      (by
        intro x hx
        have := List.eq_of_mem_replicate hx
        subst this
        simp [dd])
      (fun s hs => (hsegs s hs).1)]
  unfold goClean
  rw [if_neg hsne, data_mk, if_neg hhead, hrun, if_neg (by simpa using hLne)]
  simp

/-- `path.Clean` is idempotent. -/
theorem goClean_idem (p : String) : goClean (goClean p) = goClean p := by
  by_cases hp : p = ""
  · subst hp
    rw [goClean_empty]
    exact goClean_dot
  by_cases hroot : p.data.headD ' ' = '/'
  · have hst : CleanSt true ['/'] 1 := ⟨rfl, [], by simp, by simp [interSegs]⟩
    obtain ⟨d', hres⟩ := cleanLoop_normal true 1 ['/'] p.data hst
    obtain ⟨-, segs, hsegs, hout⟩ := hres
    have hgp : goClean p = ⟨'/' :: interSegs segs⟩ := by
      unfold goClean
      rw [if_neg hp, if_pos hroot, hout, if_neg (by simp)]
      simp
    rw [hgp]
    exact goClean_rooted_normal segs hsegs
  · have hst : CleanSt false [] 0 := ⟨0, [], by simp, by simp [interSegs], rfl⟩
    obtain ⟨d', hres⟩ := cleanLoop_normal false 0 [] p.data hst
    obtain ⟨k, segs, hsegs, hout, -⟩ := hres
    by_cases hnil : k = 0 ∧ segs = []
    · obtain ⟨rfl, rfl⟩ := hnil
      have hgp : goClean p = "." := by
        unfold goClean
        rw [if_neg hp, if_neg hroot, hout]
        simp [interSegs]
      rw [hgp]
      exact goClean_dot
    · have hgp : goClean p = ⟨interSegs (List.replicate k dd ++ segs)⟩ := by
        unfold goClean
        rw [if_neg hp, if_neg hroot, hout,
          if_neg (by simpa using interSegs_dd_segs_ne_nil k segs hsegs hnil)]
        simp
      rw [hgp]
      exact goClean_rel_normal k segs hsegs hnil

/-! ### Paths handed to the VFS by the file-level verbs (ftp/command.go)

One definition per handler, extracting the path each `Execute` passes to
the virtual filesystem.  CWD, MKD, RMD, DELE, RNFR, RNTO, MDTM, SIZE and
APPE call `c.buildPath(cmd.Arg)`; STAT, MLST, MLSD and NLST do so when the
argument is nonempty and use the cwd otherwise; LIST additionally ignores
flag-style arguments beginning with `-`; RETR and STOR pass `cmd.Arg`
unchanged to `Open` / `Create`. -/

def cwdVfsPath (pwd arg : String) : String := buildPath pwd arg
def mkdVfsPath (pwd arg : String) : String := buildPath pwd arg
def rmdVfsPath (pwd arg : String) : String := buildPath pwd arg
def deleVfsPath (pwd arg : String) : String := buildPath pwd arg
def rnfrVfsPath (pwd arg : String) : String := buildPath pwd arg
def rntoVfsPath (pwd arg : String) : String := buildPath pwd arg
def mdtmVfsPath (pwd arg : String) : String := buildPath pwd arg
def sizeVfsPath (pwd arg : String) : String := buildPath pwd arg
def appeVfsPath (pwd arg : String) : String := buildPath pwd arg

def statVfsPath (pwd arg : String) : Option String :=
  if arg = "" then none else some (buildPath pwd arg)

def mlstVfsPath (pwd arg : String) : String :=
  if arg ≠ "" then buildPath pwd arg else pwd

def mlsdVfsPath (pwd arg : String) : String :=
  if arg ≠ "" then buildPath pwd arg else pwd

def nlstVfsPath (pwd arg : String) : String :=
  if arg ≠ "" then buildPath pwd arg else pwd

def listVfsPath (pwd arg : String) : String :=
  if arg ≠ "" ∧ arg.data.headD ' ' ≠ '-' then buildPath pwd arg else pwd

def retrVfsPath (_pwd arg : String) : String := arg
def storVfsPath (_pwd arg : String) : String := arg

/-- The path resolution as claim C5 states it: the argument is taken as-is
when it begins with `/`, joined to the working directory otherwise, and
path-cleaned in both cases.  (Claim-side definition.) -/
def specResolve (pwd arg : String) : String :=
  if arg.data.headD ' ' = '/' then goClean arg
  else goClean (pwd ++ "/" ++ arg)

theorem buildPath_eq_specResolve (pwd arg : String) (hpwd : pwd ≠ "") :
    buildPath pwd arg = specResolve pwd arg := by
  unfold buildPath specResolve goIsAbs
  by_cases habs : arg.data.headD ' ' = '/'
  · rw [if_pos (by simpa using habs), if_pos habs]
  · rw [if_neg (by simpa using habs), if_neg habs]
    unfold goJoin
    rw [if_neg (by rintro ⟨h, -⟩; exact hpwd h), if_neg hpwd]
    exact goClean_idem (pwd ++ "/" ++ arg)

/-- **C5** (counterexample to the claim as stated): RETR and STOR pass the
raw argument to the VFS; with working directory `/dir` and argument
`file`, the path handed to the VFS by RETR/STOR is `file`, not the
resolved `/dir/file` the claim requires. -/
theorem c5_retr_stor_counterexample :
    retrVfsPath "/dir" "file" = "file" ∧
    storVfsPath "/dir" "file" = "file" ∧
    specResolve "/dir" "file" = "/dir/file" ∧
    ("file" : String) ≠ "/dir/file" := by
  refine ⟨rfl, rfl, ?_, by decide⟩
  unfold specResolve
  rw [if_neg (by decide),
    show ("/dir" ++ "/" ++ "file" : String) = "/dir/file" from by decide,
    show ("/dir/file" : String)
      = ⟨'/' :: interSegs [['d', 'i', 'r'], ['f', 'i', 'l', 'e']]⟩ from by decide]
  exact goClean_rooted_normal [['d', 'i', 'r'], ['f', 'i', 'l', 'e']] (by decide)

/-- **C5** (amended): for every file-level verb except RETR and STOR —
CWD, MKD, RMD, DELE, RNFR, RNTO, MDTM, SIZE, APPE, STAT, MLST, MLSD, NLST
and LIST (for non-flag arguments) — the path handed to the virtual
filesystem is the argument taken as-is when it begins with `/` and joined
to the session's working directory otherwise, path-cleaned in both cases;
RETR and STOR instead pass the argument string unchanged. -/
theorem c5_path_resolution (pwd arg : String) (hpwd : pwd ≠ "")
    (harg : arg ≠ "") :
    cwdVfsPath pwd arg = specResolve pwd arg ∧
    mkdVfsPath pwd arg = specResolve pwd arg ∧
    rmdVfsPath pwd arg = specResolve pwd arg ∧
    deleVfsPath pwd arg = specResolve pwd arg ∧
    rnfrVfsPath pwd arg = specResolve pwd arg ∧
    rntoVfsPath pwd arg = specResolve pwd arg ∧
    mdtmVfsPath pwd arg = specResolve pwd arg ∧
    sizeVfsPath pwd arg = specResolve pwd arg ∧
    appeVfsPath pwd arg = specResolve pwd arg ∧
    statVfsPath pwd arg = some (specResolve pwd arg) ∧
    mlstVfsPath pwd arg = specResolve pwd arg ∧
    mlsdVfsPath pwd arg = specResolve pwd arg ∧
    nlstVfsPath pwd arg = specResolve pwd arg ∧
    (arg.data.headD ' ' ≠ '-' → listVfsPath pwd arg = specResolve pwd arg) ∧
    retrVfsPath pwd arg = arg ∧
    storVfsPath pwd arg = arg := by
  have hb := buildPath_eq_specResolve pwd arg hpwd
  refine ⟨hb, hb, hb, hb, hb, hb, hb, hb, hb, ?_, ?_, ?_, ?_, ?_, rfl, rfl⟩
  · rw [statVfsPath, if_neg harg, hb]
  · rw [mlstVfsPath, if_pos harg, hb]
  · rw [mlsdVfsPath, if_pos harg, hb]
  · rw [nlstVfsPath, if_pos harg, hb]
  · intro hflag
    rw [listVfsPath, if_pos ⟨harg, hflag⟩, hb]

/-- Witness for `c5_path_resolution` at `pwd = "/dir"`, `arg = "file"`. -/
theorem c5_path_resolution_witness :
    cwdVfsPath "/dir" "file" = specResolve "/dir" "file" ∧
    statVfsPath "/dir" "file" = some (specResolve "/dir" "file") ∧
    retrVfsPath "/dir" "file" = "file" := by
  have h := c5_path_resolution "/dir" "file" (by decide) (by decide)
  exact ⟨h.1, h.2.2.2.2.2.2.2.2.2.1, h.2.2.2.2.2.2.2.2.2.2.2.2.2.2.1⟩

/-!
### Passive-port lease table

Model of `Server.choosePassivePort` and `Server.releasePassivePort`.
Go slices of int become `List Int` with `getD _ 0` reads (every index used
is in bounds under the table invariant, as in the Go code); the lazily
initialised nil slice `s.ports` becomes an `Option (List Int)`;
`cryptorand.Intn(n)` becomes `r % n` for a caller-supplied `r`, which
ranges over exactly the values `Intn` can return; a panic is surfaced as
a boolean flag.
-/

inductive PortErr where
  | errPassiveModeIsDisabled
  | errEmptyPortNotFound
deriving DecidableEq

structure PortServer where
  MinPassivePort : Int
  MaxPassivePort : Int
  ports : Option (List Int)
  idxPorts : List Int
  numEmptyPorts : Nat
deriving DecidableEq

def portTableSize (ptmin ptmax : Int) : Nat := (ptmax - ptmin + 1).toNat

/-- `if min < 0 { min = 0 }` -/
def clampMin (ptmin : Int) : Int := if ptmin < 0 then 0 else ptmin

/-- `if max > 65535 { max = 65535 }` -/
def clampMax (ptmax : Int) : Int := if ptmax > 65535 then 65535 else ptmax

/-- `for i := range s.ports { s.ports[i] = i + min }` -/
def initialPorts (ptmin ptmax : Int) : List Int :=
  (List.range (portTableSize ptmin ptmax)).map (fun i : Nat => (i : Int) + ptmin)

/-- `for i := range s.ports { s.idxPorts[i] = i }` -/
def initialIdxPorts (ptmin ptmax : Int) : List Int :=
  (List.range (portTableSize ptmin ptmax)).map (fun i : Nat => (i : Int))

/-- `if s.ports == nil { ... }`: build `ports[i] = i + min`, `idxPorts[i] = i`,
`numEmptyPorts = max - min + 1`. -/
def initPorts (s : PortServer) (ptmin ptmax : Int) : PortServer :=
  match s.ports with
  | some _ => s
  | none =>
    { s with
      ports := some (initialPorts ptmin ptmax),
      idxPorts := initialIdxPorts ptmin ptmax,
      numEmptyPorts := portTableSize ptmin ptmax }

/-- The locked core of `choosePassivePort` after lazy initialisation. -/
def chooseFromTable (s : PortServer) (ptmin : Int) (r : Nat) :
    (Int × Option PortErr) × PortServer :=
  if s.numEmptyPorts = 0 then ((0, some PortErr.errEmptyPortNotFound), s)
  else
    let idx := r % s.numEmptyPorts
    let numEmptyPorts := s.numEmptyPorts - 1
    let ps := s.ports.getD []
    let port1 := ps.getD idx 0
    let port2 := ps.getD numEmptyPorts 0
    ((port1, none),
      { s with
        ports := some ((ps.set idx port2).set numEmptyPorts port1),
        idxPorts := (s.idxPorts.set (port1 - ptmin).toNat (numEmptyPorts : Int)).set
          (port2 - ptmin).toNat (idx : Int),
        numEmptyPorts := numEmptyPorts })

def choosePassivePort (s : PortServer) (r : Nat) : (Int × Option PortErr) × PortServer :=
  if s.MinPassivePort > s.MaxPassivePort then ((0, some PortErr.errPassiveModeIsDisabled), s)
  else if s.MaxPassivePort = 0 then ((0, none), s)
  else
    chooseFromTable (initPorts s (clampMin s.MinPassivePort) (clampMax s.MaxPassivePort))
      (clampMin s.MinPassivePort) r

/-- `releasePassivePort`; the Bool is true when the Go code would panic on an
out-of-range port. The two swap statements read the pre-state and assign left
to right, as Go tuple assignment does. -/
def releasePassivePort (s : PortServer) (port : Int) : Bool × PortServer :=
  if port = 0 then (false, s)
  else if port < s.MinPassivePort ∨ port > s.MaxPassivePort then (true, s)
  else
    let idx1 := (s.idxPorts.getD (port - s.MinPassivePort).toNat 0).toNat
    let idx2 := s.numEmptyPorts
    let ps := s.ports.getD []
    let port2 := ps.getD idx2 0
    (false,
      { s with
        idxPorts := (s.idxPorts.set (port - s.MinPassivePort).toNat
            (s.idxPorts.getD (port2 - s.MinPassivePort).toNat 0)).set
            (port2 - s.MinPassivePort).toNat
            (s.idxPorts.getD (port - s.MinPassivePort).toNat 0),
        ports := some ((ps.set idx1 (ps.getD idx2 0)).set idx2 (ps.getD idx1 0)),
        numEmptyPorts := s.numEmptyPorts + 1 })

/-- One call in a trace against the lease table: a `choose` with randomness `r`,
or a `release` of a previously chosen port (the strict handshake). -/
inductive PortOp where
  | choose (r : Nat)
  | release (port : Int)

structure PortRun where
  srv : PortServer
  leased : List Int
  panicked : Bool
  valid : Bool

def portStep (st : PortRun) (op : PortOp) : PortRun :=
  if st.panicked = true ∨ st.valid = false then st
  else
    match op with
    | PortOp.choose r =>
      match choosePassivePort st.srv r with
      | ((port, none), srv2) =>
        { st with srv := srv2,
                  leased := if port = 0 then st.leased else port :: st.leased }
      | ((_, some _), srv2) => { st with srv := srv2 }
    | PortOp.release p =>
      if p ∈ st.leased then
        match releasePassivePort st.srv p with
        | (true, _) => { st with panicked := true }
        | (false, srv2) => { st with srv := srv2, leased := st.leased.erase p }
      else { st with valid := false }

def runPorts (ptmin ptmax : Int) (ops : List PortOp) : PortRun :=
  ops.foldl portStep
    { srv := { MinPassivePort := ptmin, MaxPassivePort := ptmax,
               ports := none, idxPorts := [], numEmptyPorts := 0 },
      leased := [], panicked := false, valid := true }

/-- Representation invariant of the initialised table: `ps` holds a permutation
of `[min, max]` with the free ports in positions `< n` and the leased ports in
positions `≥ n`, `ip` is the inverse index, and `leased` is exactly the set of
leased ports. -/
def PortTab (ptmin ptmax : Int) (ps ip : List Int) (n : Nat) (leased : List Int) : Prop :=
  ps.length = portTableSize ptmin ptmax
  ∧ ip.length = portTableSize ptmin ptmax
  ∧ n ≤ portTableSize ptmin ptmax
  ∧ (∀ i, i < portTableSize ptmin ptmax → ptmin ≤ ps.getD i 0 ∧ ps.getD i 0 ≤ ptmax)
  ∧ (∀ i, i < portTableSize ptmin ptmax → ip.getD (ps.getD i 0 - ptmin).toNat 0 = (i : Int))
  ∧ leased.length = portTableSize ptmin ptmax - n
  ∧ leased.Nodup
  ∧ (∀ q, q ∈ leased ↔ ∃ i, n ≤ i ∧ i < portTableSize ptmin ptmax ∧ ps.getD i 0 = q)

def PortInv (ptmin ptmax : Int) (s : PortServer) (leased : List Int) : Prop :=
  s.MinPassivePort = ptmin ∧ s.MaxPassivePort = ptmax ∧
  ((s.ports = none ∧ s.numEmptyPorts = 0 ∧ leased = []) ∨
   (∃ ps, s.ports = some ps ∧ PortTab ptmin ptmax ps s.idxPorts s.numEmptyPorts leased))

-- helper getD/set lemmas

theorem listGetD_set_self (L : List Int) (i : Nat) (x : Int) (h : i < L.length) :
    (L.set i x).getD i 0 = x := by
  rw [List.getD_eq_getElem?_getD, List.getElem?_set_self h]
  rfl

theorem listGetD_set_ne (L : List Int) (i j : Nat) (x : Int) (h : i ≠ j) :
    (L.set i x).getD j 0 = L.getD j 0 := by
  rw [List.getD_eq_getElem?_getD, List.getElem?_set_ne h, ← List.getD_eq_getElem?_getD]

theorem rangeMap_getD (f : Nat → Int) (n i : Nat) (h : i < n) :
    (((List.range n).map f).getD i 0) = f i := by
  rw [List.getD_eq_getElem ((List.range n).map f) 0
      (by simpa using h)]
  rw [List.getElem_map, List.getElem_range]

theorem portTableSize_cast (hmm : ptmin ≤ ptmax) :
    (portTableSize ptmin ptmax : Int) = ptmax - ptmin + 1 := by
  unfold portTableSize; omega

theorem portTableSize_pos (hmm : ptmin ≤ ptmax) : 0 < portTableSize ptmin ptmax := by
  unfold portTableSize; omega

/-- The freshly built table satisfies the representation invariant with no
port leased. -/
theorem portTab_init (ptmin ptmax : Int) (hmm : ptmin ≤ ptmax) :
    PortTab ptmin ptmax (initialPorts ptmin ptmax) (initialIdxPorts ptmin ptmax)
      (portTableSize ptmin ptmax) [] := by
  have hN := portTableSize_cast hmm
  refine ⟨by rw [initialPorts, List.length_map, List.length_range],
    by rw [initialIdxPorts, List.length_map, List.length_range], le_refl _, ?_, ?_,
    by simp, List.nodup_nil, ?_⟩
  · intro i hi
    rw [initialPorts, rangeMap_getD _ _ _ hi]
    constructor <;> omega
  · intro i hi
    rw [initialPorts, initialIdxPorts, rangeMap_getD _ _ _ hi]
    have : ((i : Int) + ptmin - ptmin).toNat = i := by omega
    rw [this, rangeMap_getD _ _ _ hi]
  · intro q
    simp only [List.not_mem_nil, false_iff]
    rintro ⟨i, hi1, hi2, -⟩
    omega

/-- Positions of distinct indices hold distinct ports (from the inverse index). -/
theorem portTab_inj (h : PortTab ptmin ptmax ps ip n leased) :
    ∀ i j, i < portTableSize ptmin ptmax → j < portTableSize ptmin ptmax →
      ps.getD i 0 = ps.getD j 0 → i = j := by
  obtain ⟨-, -, -, -, hB, -, -, -⟩ := h
  intro i j hi hj hij
  have b1 := hB i hi
  have b2 := hB j hj
  rw [hij] at b1
  rw [b1] at b2
  exact_mod_cast b2

/-- `choose` on a table with `n + 1` free ports, picking index `idx < n + 1`:
the returned port `ps[idx]` is in range and not currently leased, and the
swapped table satisfies the invariant with that port leased. -/
theorem portTab_choose (ptmin ptmax : Int) (ps ip : List Int) (n idx : Nat) (leased : List Int)
    (hmm : ptmin ≤ ptmax) (hidx : idx < n + 1)
    (h : PortTab ptmin ptmax ps ip (n + 1) leased) :
    ptmin ≤ ps.getD idx 0 ∧ ps.getD idx 0 ≤ ptmax ∧
    ps.getD idx 0 ∉ leased ∧
    PortTab ptmin ptmax
      ((ps.set idx (ps.getD n 0)).set n (ps.getD idx 0))
      ((ip.set (ps.getD idx 0 - ptmin).toNat (n : Int)).set
        (ps.getD n 0 - ptmin).toNat (idx : Int))
      n (ps.getD idx 0 :: leased) := by
  have hinj := portTab_inj h
  obtain ⟨hpl, hil, hnN, hA, hB, hlen, hnd, hmem⟩ := h
  have hNc : (portTableSize ptmin ptmax : Int) = ptmax - ptmin + 1 := portTableSize_cast hmm
  have hnlt : n < portTableSize ptmin ptmax := by omega
  have hidxN : idx < portTableSize ptmin ptmax := by omega
  have hb1 := hA idx hidxN
  have hb2 := hA n hnlt
  have hk1N : (ps.getD idx 0 - ptmin).toNat < portTableSize ptmin ptmax := by omega
  have hk2N : (ps.getD n 0 - ptmin).toNat < portTableSize ptmin ptmax := by omega
  have hps2len : ((ps.set idx (ps.getD n 0)).set n (ps.getD idx 0)).length =
      portTableSize ptmin ptmax := by
    rw [List.length_set, List.length_set, hpl]
  have hip2len : ((ip.set (ps.getD idx 0 - ptmin).toNat (n : Int)).set
      (ps.getD n 0 - ptmin).toNat (idx : Int)).length = portTableSize ptmin ptmax := by
    rw [List.length_set, List.length_set, hil]
  have hps2get : ∀ j, j < portTableSize ptmin ptmax →
      ((ps.set idx (ps.getD n 0)).set n (ps.getD idx 0)).getD j 0 =
        if j = n then ps.getD idx 0 else if j = idx then ps.getD n 0 else ps.getD j 0 := by
    intro j hj
    by_cases hjn : j = n
    · rw [if_pos hjn, hjn]
      exact listGetD_set_self _ _ _ (by rw [List.length_set, hpl]; exact hnlt)
    · rw [if_neg hjn]
      by_cases hji : j = idx
      · rw [if_pos hji, hji, listGetD_set_ne _ _ _ _ (fun hc => hjn (hji.trans hc.symm))]
        exact listGetD_set_self _ _ _ (by rw [hpl]; exact hidxN)
      · rw [if_neg hji, listGetD_set_ne _ _ _ _ (fun hc => hjn hc.symm),
          listGetD_set_ne _ _ _ _ (fun hc => hji hc.symm)]
  have hip2get : ∀ k, k < portTableSize ptmin ptmax →
      ((ip.set (ps.getD idx 0 - ptmin).toNat (n : Int)).set
        (ps.getD n 0 - ptmin).toNat (idx : Int)).getD k 0 =
        if k = (ps.getD n 0 - ptmin).toNat then (idx : Int)
        else if k = (ps.getD idx 0 - ptmin).toNat then (n : Int)
        else ip.getD k 0 := by
    intro k hk
    by_cases hkk2 : k = (ps.getD n 0 - ptmin).toNat
    · rw [if_pos hkk2, hkk2]
      exact listGetD_set_self _ _ _ (by rw [List.length_set, hil]; exact hk2N)
    · rw [if_neg hkk2]
      by_cases hkk1 : k = (ps.getD idx 0 - ptmin).toNat
      · rw [if_pos hkk1, hkk1, listGetD_set_ne _ _ _ _ (fun hc => hkk2 (hkk1.trans hc.symm))]
        exact listGetD_set_self _ _ _ (by rw [hil]; exact hk1N)
      · rw [if_neg hkk1, listGetD_set_ne _ _ _ _ (fun hc => hkk2 hc.symm),
          listGetD_set_ne _ _ _ _ (fun hc => hkk1 hc.symm)]
  have hfresh : ps.getD idx 0 ∉ leased := by
    intro hc
    obtain ⟨i, hi1, hi2, hi3⟩ := (hmem _).mp hc
    have := hinj i idx hi2 hidxN hi3
    omega
  refine ⟨hb1.1, hb1.2, hfresh, hps2len, hip2len, le_of_lt hnlt, ?_, ?_, ?_, ?_, ?_⟩
  · -- port bounds
    intro j hj
    rw [hps2get j hj]
    by_cases h1 : j = n
    · rw [if_pos h1]
      exact hb1
    · rw [if_neg h1]
      by_cases h2 : j = idx
      · rw [if_pos h2]
        exact hb2
      · rw [if_neg h2]
        exact hA j hj
  · -- inverse index
    intro j hj
    rw [hps2get j hj]
    by_cases h1 : j = n
    · rw [if_pos h1]
      by_cases hin : idx = n
      · have hpp : ps.getD idx 0 = ps.getD n 0 := by rw [hin]
        rw [hip2get _ hk1N, if_pos (by rw [hpp]), hin, h1]
      · have hpp : ps.getD idx 0 ≠ ps.getD n 0 := fun hc => hin (hinj idx n hidxN hnlt hc)
        have hkk : (ps.getD idx 0 - ptmin).toNat ≠ (ps.getD n 0 - ptmin).toNat := by
          intro hc
          apply hpp
          omega
        rw [hip2get _ hk1N, if_neg hkk, if_pos rfl, h1]
    · rw [if_neg h1]
      by_cases h2 : j = idx
      · rw [if_pos h2, hip2get _ hk2N, if_pos rfl, h2]
      · rw [if_neg h2]
        have hv := hA j hj
        have hne2 : (ps.getD j 0 - ptmin).toNat ≠ (ps.getD n 0 - ptmin).toNat := by
          intro hc
          have hx : ps.getD j 0 = ps.getD n 0 := by omega
          exact h1 (hinj j n hj hnlt hx)
        have hne1 : (ps.getD j 0 - ptmin).toNat ≠ (ps.getD idx 0 - ptmin).toNat := by
          intro hc
          have hx : ps.getD j 0 = ps.getD idx 0 := by omega
          exact h2 (hinj j idx hj hidxN hx)
        rw [hip2get _ (by omega), if_neg hne2, if_neg hne1]
        exact hB j hj
  · -- leased count
    rw [List.length_cons, hlen]
    omega
  · -- leased nodup
    exact List.nodup_cons.mpr ⟨hfresh, hnd⟩
  · -- leased membership
    intro q
    constructor
    · intro hq
      rcases List.mem_cons.mp hq with hq | hq
      · exact ⟨n, le_refl n, hnlt, by rw [hps2get n hnlt, if_pos rfl, hq]⟩
      · obtain ⟨i, hi1, hi2, hi3⟩ := (hmem q).mp hq
        refine ⟨i, by omega, hi2, ?_⟩
        rw [hps2get i hi2, if_neg (by omega), if_neg (by omega)]
        exact hi3
    · rintro ⟨i, hi1, hi2, hi3⟩
      rw [hps2get i hi2] at hi3
      by_cases hii : i = n
      · rw [if_pos hii] at hi3
        exact List.mem_cons.mpr (Or.inl hi3.symm)
      · rw [if_neg hii, if_neg (by omega)] at hi3
        exact List.mem_cons.mpr (Or.inr ((hmem q).mpr ⟨i, by omega, hi2, hi3⟩))

/-- `release` of a leased port `p`: the Go code does not panic, the swapped
table satisfies the invariant with `p` un-leased, and `p` lands in position
`n` (the first leased slot becomes the last free slot). -/
theorem portTab_release (ptmin ptmax : Int) (ps ip : List Int) (n : Nat) (leased : List Int)
    (p : Int) (hmm : ptmin ≤ ptmax)
    (h : PortTab ptmin ptmax ps ip n leased) (hp : p ∈ leased) :
    ptmin ≤ p ∧ p ≤ ptmax ∧ n < portTableSize ptmin ptmax ∧
    PortTab ptmin ptmax
      ((ps.set (ip.getD (p - ptmin).toNat 0).toNat (ps.getD n 0)).set n
        (ps.getD (ip.getD (p - ptmin).toNat 0).toNat 0))
      ((ip.set (p - ptmin).toNat (ip.getD (ps.getD n 0 - ptmin).toNat 0)).set
        (ps.getD n 0 - ptmin).toNat (ip.getD (p - ptmin).toNat 0))
      (n + 1) (leased.erase p) ∧
    ((ps.set (ip.getD (p - ptmin).toNat 0).toNat (ps.getD n 0)).set n
        (ps.getD (ip.getD (p - ptmin).toNat 0).toNat 0)).getD n 0 = p := by
  have hinj := portTab_inj h
  obtain ⟨hpl, hil, hnN, hA, hB, hlen, hnd, hmem⟩ := h
  have hNc : (portTableSize ptmin ptmax : Int) = ptmax - ptmin + 1 := portTableSize_cast hmm
  obtain ⟨i0, hi0n, hi0N, hi0p⟩ := (hmem p).mp hp
  have hnlt : n < portTableSize ptmin ptmax := by omega
  have hbp : ptmin ≤ p ∧ p ≤ ptmax := hi0p ▸ hA i0 hi0N
  have hb2 := hA n hnlt
  have hip_p : ip.getD (p - ptmin).toNat 0 = (i0 : Int) := by
    have := hB i0 hi0N
    rw [hi0p] at this
    exact this
  have hidx1 : (ip.getD (p - ptmin).toNat 0).toNat = i0 := by
    rw [hip_p]
    exact Int.toNat_natCast i0
  have hB2n : ip.getD (ps.getD n 0 - ptmin).toNat 0 = (n : Int) := hB n hnlt
  rw [hidx1, hip_p, hB2n, hi0p]
  have hKpN : (p - ptmin).toNat < portTableSize ptmin ptmax := by omega
  have hK2N : (ps.getD n 0 - ptmin).toNat < portTableSize ptmin ptmax := by omega
  have hps2len : ((ps.set i0 (ps.getD n 0)).set n p).length = portTableSize ptmin ptmax := by
    rw [List.length_set, List.length_set, hpl]
  have hip2len : ((ip.set (p - ptmin).toNat (n : Int)).set
      (ps.getD n 0 - ptmin).toNat (i0 : Int)).length = portTableSize ptmin ptmax := by
    rw [List.length_set, List.length_set, hil]
  have hps2get : ∀ j, j < portTableSize ptmin ptmax →
      ((ps.set i0 (ps.getD n 0)).set n p).getD j 0 =
        if j = n then p else if j = i0 then ps.getD n 0 else ps.getD j 0 := by
    intro j hj
    by_cases hjn : j = n
    · rw [if_pos hjn, hjn]
      exact listGetD_set_self _ _ _ (by rw [List.length_set, hpl]; exact hnlt)
    · rw [if_neg hjn]
      by_cases hji : j = i0
      · rw [if_pos hji, hji, listGetD_set_ne _ _ _ _ (fun hc => hjn (hji.trans hc.symm))]
        exact listGetD_set_self _ _ _ (by rw [hpl]; exact hi0N)
      · rw [if_neg hji, listGetD_set_ne _ _ _ _ (fun hc => hjn hc.symm),
          listGetD_set_ne _ _ _ _ (fun hc => hji hc.symm)]
  have hip2get : ∀ k, k < portTableSize ptmin ptmax →
      ((ip.set (p - ptmin).toNat (n : Int)).set
        (ps.getD n 0 - ptmin).toNat (i0 : Int)).getD k 0 =
        if k = (ps.getD n 0 - ptmin).toNat then (i0 : Int)
        else if k = (p - ptmin).toNat then (n : Int)
        else ip.getD k 0 := by
    intro k hk
    by_cases hkk2 : k = (ps.getD n 0 - ptmin).toNat
    · rw [if_pos hkk2, hkk2]
      exact listGetD_set_self _ _ _ (by rw [List.length_set, hil]; exact hK2N)
    · rw [if_neg hkk2]
      by_cases hkk1 : k = (p - ptmin).toNat
      · rw [if_pos hkk1, hkk1, listGetD_set_ne _ _ _ _ (fun hc => hkk2 (hkk1.trans hc.symm))]
        exact listGetD_set_self _ _ _ (by rw [hil]; exact hKpN)
      · rw [if_neg hkk1, listGetD_set_ne _ _ _ _ (fun hc => hkk2 hc.symm),
          listGetD_set_ne _ _ _ _ (fun hc => hkk1 hc.symm)]
  refine ⟨hbp.1, hbp.2, hnlt, ⟨hps2len, hip2len, by omega, ?_, ?_, ?_, hnd.erase p, ?_⟩,
    by rw [hps2get n hnlt, if_pos rfl]⟩
  · -- port bounds
    intro j hj
    rw [hps2get j hj]
    by_cases h1 : j = n
    · rw [if_pos h1]
      exact hbp
    · rw [if_neg h1]
      by_cases h2 : j = i0
      · rw [if_pos h2]
        exact hb2
      · rw [if_neg h2]
        exact hA j hj
  · -- inverse index
    intro j hj
    rw [hps2get j hj]
    by_cases h1 : j = n
    · rw [if_pos h1]
      by_cases hin : i0 = n
      · have hpq : p = ps.getD n 0 := by rw [← hin, hi0p]
        rw [hip2get _ hKpN, if_pos (by rw [hpq]), hin, h1]
      · have hpq : p ≠ ps.getD n 0 := by
          intro hc
          rw [← hi0p] at hc
          exact hin (hinj i0 n hi0N hnlt hc)
        have hkk : (p - ptmin).toNat ≠ (ps.getD n 0 - ptmin).toNat := by
          intro hc
          apply hpq
          omega
        rw [hip2get _ hKpN, if_neg hkk, if_pos rfl, h1]
    · rw [if_neg h1]
      by_cases h2 : j = i0
      · rw [if_pos h2, hip2get _ hK2N, if_pos rfl, h2]
      · rw [if_neg h2]
        have hv := hA j hj
        have hne2 : (ps.getD j 0 - ptmin).toNat ≠ (ps.getD n 0 - ptmin).toNat := by
          intro hc
          have hx : ps.getD j 0 = ps.getD n 0 := by omega
          exact h1 (hinj j n hj hnlt hx)
        have hne1 : (ps.getD j 0 - ptmin).toNat ≠ (p - ptmin).toNat := by
          intro hc
          have hx : ps.getD j 0 = p := by omega
          rw [← hi0p] at hx
          exact h2 (hinj j i0 hj hi0N hx)
        rw [hip2get _ (by omega), if_neg hne2, if_neg hne1]
        exact hB j hj
  · -- leased count
    rw [List.length_erase_of_mem hp, hlen]
    omega
  · -- leased membership
    intro q
    rw [hnd.mem_erase_iff]
    constructor
    · rintro ⟨hqp, hq⟩
      obtain ⟨i, hi1, hi2, hi3⟩ := (hmem q).mp hq
      have hii0 : i ≠ i0 := by
        intro hc
        rw [hc, hi0p] at hi3
        exact hqp hi3.symm
      by_cases hin : i = n
      · have hi0ne : i0 ≠ n := fun hc => hii0 (hin.trans hc.symm)
        refine ⟨i0, by omega, hi0N, ?_⟩
        rw [hps2get i0 hi0N, if_neg hi0ne, if_pos rfl, ← hin]
        exact hi3
      · refine ⟨i, by omega, hi2, ?_⟩
        rw [hps2get i hi2, if_neg hin, if_neg hii0]
        exact hi3
    · rintro ⟨i, hi1, hi2, hi3⟩
      have hin : i ≠ n := by omega
      rw [hps2get i hi2, if_neg hin] at hi3
      by_cases hii0 : i = i0
      · rw [if_pos hii0] at hi3
        refine ⟨?_, (hmem q).mpr ⟨n, le_refl n, hnlt, hi3⟩⟩
        intro hc
        rw [hc, ← hi0p] at hi3
        exact hin ((hinj n i0 hnlt hi0N hi3).trans hii0.symm).symm
      · rw [if_neg hii0] at hi3
        refine ⟨?_, (hmem q).mpr ⟨i, by omega, hi2, hi3⟩⟩
        intro hc
        rw [hc, ← hi0p] at hi3
        exact hii0 (hinj i i0 hi2 hi0N hi3)

theorem clampMin_eq (ptmin : Int) (h : 0 ≤ ptmin) : clampMin ptmin = ptmin := by
  unfold clampMin
  rw [if_neg (by omega)]

theorem clampMax_eq (ptmax : Int) (h : ptmax ≤ 65535) : clampMax ptmax = ptmax := by
  unfold clampMax
  rw [if_neg (by omega)]

theorem initPorts_some (s : PortServer) (ptmin ptmax : Int) (ps : List Int)
    (h : s.ports = some ps) : initPorts s ptmin ptmax = s := by
  unfold initPorts
  rw [h]

theorem initPorts_none (s : PortServer) (ptmin ptmax : Int) (h : s.ports = none) :
    initPorts s ptmin ptmax =
      { s with ports := some (initialPorts ptmin ptmax),
               idxPorts := initialIdxPorts ptmin ptmax,
               numEmptyPorts := portTableSize ptmin ptmax } := by
  unfold initPorts
  rw [h]

theorem chooseFromTable_fail (s : PortServer) (ptmin : Int) (r : Nat)
    (h : s.numEmptyPorts = 0) :
    chooseFromTable s ptmin r = ((0, some PortErr.errEmptyPortNotFound), s) := by
  unfold chooseFromTable
  rw [if_pos h]

theorem chooseFromTable_succ (s : PortServer) (ptmin : Int) (r : Nat) (ps : List Int) (n : Nat)
    (hps : s.ports = some ps) (hn : s.numEmptyPorts = n + 1) :
    chooseFromTable s ptmin r =
      ((ps.getD (r % (n + 1)) 0, none),
        { s with
          ports := some ((ps.set (r % (n + 1)) (ps.getD n 0)).set n
            (ps.getD (r % (n + 1)) 0)),
          idxPorts := (s.idxPorts.set (ps.getD (r % (n + 1)) 0 - ptmin).toNat (n : Int)).set
            (ps.getD n 0 - ptmin).toNat (((r % (n + 1) : Nat)) : Int),
          numEmptyPorts := n }) := by
  unfold chooseFromTable
  rw [if_neg (by omega), hn, hps]
  rfl

theorem choosePassivePort_eq (ptmin ptmax : Int) (s : PortServer) (r : Nat)
    (hmin : 0 < ptmin) (hmm : ptmin ≤ ptmax) (hmax : ptmax ≤ 65535)
    (h1 : s.MinPassivePort = ptmin) (h2 : s.MaxPassivePort = ptmax) :
    choosePassivePort s r = chooseFromTable (initPorts s ptmin ptmax) ptmin r := by
  unfold choosePassivePort
  rw [h1, h2, if_neg (by omega), if_neg (by omega), clampMin_eq ptmin (by omega),
    clampMax_eq ptmax hmax]

theorem releasePassivePort_eq (s : PortServer) (p : Int) (ps : List Int)
    (hps : s.ports = some ps) (hne0 : p ≠ 0)
    (hbound : ¬(p < s.MinPassivePort ∨ p > s.MaxPassivePort)) :
    releasePassivePort s p =
      (false,
        { s with
          idxPorts := (s.idxPorts.set (p - s.MinPassivePort).toNat
              (s.idxPorts.getD (ps.getD s.numEmptyPorts 0 - s.MinPassivePort).toNat 0)).set
              (ps.getD s.numEmptyPorts 0 - s.MinPassivePort).toNat
              (s.idxPorts.getD (p - s.MinPassivePort).toNat 0),
          ports := some ((ps.set (s.idxPorts.getD (p - s.MinPassivePort).toNat 0).toNat
              (ps.getD s.numEmptyPorts 0)).set s.numEmptyPorts
              (ps.getD (s.idxPorts.getD (p - s.MinPassivePort).toNat 0).toNat 0)),
          numEmptyPorts := s.numEmptyPorts + 1 }) := by
  unfold releasePassivePort
  rw [if_neg hne0, if_neg hbound, hps]
  rfl

/-- One `choosePassivePort` call with the table invariant: it fails (with
`errEmptyPortNotFound`) exactly when all the ports are leased, and otherwise
returns a fresh in-range port and preserves the invariant. -/
theorem choose_spec (ptmin ptmax : Int) (s : PortServer) (leased : List Int) (r : Nat)
    (hmin : 0 < ptmin) (hmm : ptmin ≤ ptmax) (hmax : ptmax ≤ 65535)
    (hInv : PortInv ptmin ptmax s leased) :
    ((choosePassivePort s r).1.2 = some PortErr.errEmptyPortNotFound
      ∧ (leased.length : Int) = ptmax - ptmin + 1
      ∧ PortInv ptmin ptmax (choosePassivePort s r).2 leased)
    ∨ ((choosePassivePort s r).1.2 = none
      ∧ (leased.length : Int) < ptmax - ptmin + 1
      ∧ ptmin ≤ (choosePassivePort s r).1.1 ∧ (choosePassivePort s r).1.1 ≤ ptmax
      ∧ (choosePassivePort s r).1.1 ∉ leased
      ∧ PortInv ptmin ptmax (choosePassivePort s r).2
          ((choosePassivePort s r).1.1 :: leased)) := by
  obtain ⟨h1, h2, hcase⟩ := hInv
  have hNc : (portTableSize ptmin ptmax : Int) = ptmax - ptmin + 1 := portTableSize_cast hmm
  have hNpos : 0 < portTableSize ptmin ptmax := portTableSize_pos hmm
  rw [choosePassivePort_eq ptmin ptmax s r hmin hmm hmax h1 h2]
  rcases hcase with ⟨hpn, hn0, hl⟩ | ⟨ps, hps, htab⟩
  · -- table not yet initialised: it is built with all ports free, so choose succeeds
    subst hl
    rw [initPorts_none s ptmin ptmax hpn]
    obtain ⟨m, hm⟩ : ∃ m, portTableSize ptmin ptmax = m + 1 :=
      ⟨portTableSize ptmin ptmax - 1, by omega⟩
    have htab := portTab_init ptmin ptmax hmm
    rw [hm] at htab
    obtain ⟨hcb1, hcb2, hcfresh, hctab⟩ :=
      portTab_choose ptmin ptmax (initialPorts ptmin ptmax) (initialIdxPorts ptmin ptmax)
        m (r % (m + 1)) [] hmm (Nat.mod_lt _ (Nat.succ_pos m)) htab
    rw [chooseFromTable_succ _ ptmin r (initialPorts ptmin ptmax) m rfl (by show portTableSize ptmin ptmax = m + 1; omega)]
    refine Or.inr ⟨rfl, by simp; omega, hcb1, hcb2, hcfresh, h1, h2, Or.inr ⟨_, rfl, ?_⟩⟩
    exact hctab
  · rw [initPorts_some s ptmin ptmax ps hps]
    by_cases hn0 : s.numEmptyPorts = 0
    · have htab2 := htab
      obtain ⟨-, -, -, -, -, hlen, -, -⟩ := htab2
      rw [chooseFromTable_fail s ptmin r hn0]
      refine Or.inl ⟨rfl, ?_, h1, h2, Or.inr ⟨ps, hps, htab⟩⟩
      rw [hlen, hn0]
      omega
    · obtain ⟨m, hm⟩ : ∃ m, s.numEmptyPorts = m + 1 := ⟨s.numEmptyPorts - 1, by omega⟩
      have htab2 := htab
      obtain ⟨-, -, hnN, -, -, hlen, -, -⟩ := htab2
      rw [hm] at htab
      obtain ⟨hcb1, hcb2, hcfresh, hctab⟩ :=
        portTab_choose ptmin ptmax ps s.idxPorts m (r % (m + 1)) leased hmm
          (Nat.mod_lt _ (Nat.succ_pos m)) htab
      rw [chooseFromTable_succ s ptmin r ps m hps hm]
      refine Or.inr ⟨rfl, ?_, hcb1, hcb2, hcfresh, h1, h2, Or.inr ⟨_, rfl, ?_⟩⟩
      · rw [hlen]
        omega
      · exact hctab

/-- One `releasePassivePort` call of a leased port with the table invariant:
no panic, the invariant is preserved with the port dropped from the lease set,
and the released port lands in the first leased slot, which becomes the last
free slot. -/
theorem release_spec (ptmin ptmax : Int) (s : PortServer) (leased : List Int) (p : Int)
    (hmin : 0 < ptmin) (hmm : ptmin ≤ ptmax)
    (hInv : PortInv ptmin ptmax s leased) (hp : p ∈ leased) :
    (releasePassivePort s p).1 = false
    ∧ PortInv ptmin ptmax (releasePassivePort s p).2 (leased.erase p)
    ∧ (releasePassivePort s p).2.numEmptyPorts = s.numEmptyPorts + 1
    ∧ ∃ ps2, (releasePassivePort s p).2.ports = some ps2
        ∧ ps2.getD s.numEmptyPorts 0 = p := by
  obtain ⟨h1, h2, hcase⟩ := hInv
  rcases hcase with ⟨-, -, hl⟩ | ⟨ps, hps, htab⟩
  · subst hl
    cases hp
  · obtain ⟨hbp1, hbp2, hnlt, htab2, hpos⟩ :=
      portTab_release ptmin ptmax ps s.idxPorts s.numEmptyPorts leased p
        (by omega) htab hp
    have hne0 : p ≠ 0 := by omega
    have hbound : ¬(p < s.MinPassivePort ∨ p > s.MaxPassivePort) := by
      rw [h1, h2]
      omega
    rw [releasePassivePort_eq s p ps hps hne0 hbound, h1]
    exact ⟨rfl, ⟨rfl, h2, Or.inr ⟨_, rfl, htab2⟩⟩, rfl, ⟨_, rfl, hpos⟩⟩

/-- A `choosePassivePort` whose random index points at a given table slot
returns the port stored there. -/
theorem choose_hits (ptmin ptmax : Int) (s : PortServer) (ps : List Int) (n : Nat) (p : Int)
    (hmin : 0 < ptmin) (hmm : ptmin ≤ ptmax) (hmax : ptmax ≤ 65535)
    (h1 : s.MinPassivePort = ptmin) (h2 : s.MaxPassivePort = ptmax)
    (hps : s.ports = some ps) (hn : s.numEmptyPorts = n + 1)
    (hget : ps.getD n 0 = p) :
    (choosePassivePort s n).1.1 = p ∧ (choosePassivePort s n).1.2 = none := by
  rw [choosePassivePort_eq ptmin ptmax s n hmin hmm hmax h1 h2,
    initPorts_some s ptmin ptmax ps hps,
    chooseFromTable_succ s ptmin n ps n hps hn]
  constructor
  · show ps.getD (n % (n + 1)) 0 = p
    rw [Nat.mod_eq_of_lt (Nat.lt_succ_self n), hget]
  · rfl

/-- The invariant carried across a trace: as long as the trace has stayed
valid (every release names an outstanding lease), no step has panicked and
the server/lease pair satisfies `PortInv`. -/
def GoodRun (ptmin ptmax : Int) (st : PortRun) : Prop :=
  st.valid = true → st.panicked = false ∧ PortInv ptmin ptmax st.srv st.leased

theorem portStep_good (ptmin ptmax : Int) (st : PortRun) (op : PortOp)
    (hmin : 0 < ptmin) (hmm : ptmin ≤ ptmax) (hmax : ptmax ≤ 65535)
    (h : GoodRun ptmin ptmax st) : GoodRun ptmin ptmax (portStep st op) := by
  by_cases hguard : st.panicked = true ∨ st.valid = false
  · unfold portStep
    rw [if_pos hguard]
    exact h
  · simp only [not_or, Bool.not_eq_true, Bool.not_eq_false] at hguard
    obtain ⟨hpan, hval⟩ := hguard
    obtain ⟨hpf, hInv⟩ := h hval
    unfold portStep
    rw [if_neg (by simp [hpan, hval])]
    cases op with
    | choose r =>
      have hsp := choose_spec ptmin ptmax st.srv st.leased r hmin hmm hmax hInv
      rcases hres : choosePassivePort st.srv r with ⟨⟨port, err⟩, srv2⟩
      rw [hres] at hsp
      simp only [] at hsp
      rcases hsp with ⟨he, hlen, hInv2⟩ | ⟨he, hlen, hb1, hb2, hfr, hInv2⟩
      · subst he
        show GoodRun ptmin ptmax
          (match choosePassivePort st.srv r with
          | ((port, none), srv2) =>
            { st with srv := srv2,
                      leased := if port = 0 then st.leased else port :: st.leased }
          | ((_, some _), srv2) => { st with srv := srv2 })
        rw [hres]
        intro hv
        exact ⟨hpan, hInv2⟩
      · subst he
        show GoodRun ptmin ptmax
          (match choosePassivePort st.srv r with
          | ((port, none), srv2) =>
            { st with srv := srv2,
                      leased := if port = 0 then st.leased else port :: st.leased }
          | ((_, some _), srv2) => { st with srv := srv2 })
        rw [hres]
        show GoodRun ptmin ptmax
          { st with srv := srv2,
                    leased := if port = 0 then st.leased else port :: st.leased }
        rw [if_neg (show ¬ port = 0 by omega)]
        intro hv
        exact ⟨hpan, hInv2⟩
    | release p =>
      by_cases hmem : p ∈ st.leased
      · have hr := release_spec ptmin ptmax st.srv st.leased p hmin hmm hInv hmem
        rcases hrel : releasePassivePort st.srv p with ⟨pan, srv2⟩
        rw [hrel] at hr
        simp only [] at hr
        obtain ⟨hpan2, hInv2, -, -⟩ := hr
        subst hpan2
        show GoodRun ptmin ptmax
          (if p ∈ st.leased then
            match releasePassivePort st.srv p with
            | (true, _) => { st with panicked := true }
            | (false, srv2) => { st with srv := srv2, leased := st.leased.erase p }
          else { st with valid := false })
        rw [if_pos hmem, hrel]
        intro hv
        exact ⟨hpan, hInv2⟩
      · show GoodRun ptmin ptmax
          (if p ∈ st.leased then
            match releasePassivePort st.srv p with
            | (true, _) => { st with panicked := true }
            | (false, srv2) => { st with srv := srv2, leased := st.leased.erase p }
          else { st with valid := false })
        rw [if_neg hmem]
        intro hv
        simp at hv

theorem foldl_portStep_good (ptmin ptmax : Int) (ops : List PortOp) (st : PortRun)
    (hmin : 0 < ptmin) (hmm : ptmin ≤ ptmax) (hmax : ptmax ≤ 65535)
    (h : GoodRun ptmin ptmax st) : GoodRun ptmin ptmax (ops.foldl portStep st) := by
  induction ops generalizing st with
  | nil => exact h
  | cons op ops ih =>
    rw [List.foldl_cons]
    exact ih (portStep st op) (portStep_good ptmin ptmax st op hmin hmm hmax h)

theorem runPorts_good (ptmin ptmax : Int) (ops : List PortOp)
    (hmin : 0 < ptmin) (hmm : ptmin ≤ ptmax) (hmax : ptmax ≤ 65535) :
    GoodRun ptmin ptmax (runPorts ptmin ptmax ops) := by
  unfold runPorts
  apply foldl_portStep_good ptmin ptmax ops _ hmin hmm hmax
  intro hv
  exact ⟨rfl, rfl, rfl, Or.inl ⟨rfl, rfl, rfl⟩⟩

/-- What the (corrected) C2 claim asserts about the state reached by a valid
trace: no panic; the outstanding leases are duplicate-free and lie in
`[min, max]`; the ports/idxPorts pair satisfies the inverse-permutation table
invariant; the next `choose` fails (with `errEmptyPortNotFound`, never with
the disabled error) exactly when all `max - min + 1` ports are leased;
a successful `choose` never returns an outstanding port; and after
`releasePassivePort p` (which does not panic) some randomness makes the next
`choosePassivePort` return `p` again. -/
def C2Conclusion (ptmin ptmax : Int) (run : PortRun) : Prop :=
  run.panicked = false
  ∧ run.leased.Nodup
  ∧ (∀ p, p ∈ run.leased → ptmin ≤ p ∧ p ≤ ptmax)
  ∧ PortInv ptmin ptmax run.srv run.leased
  ∧ (∀ r, (choosePassivePort run.srv r).1.2 = some PortErr.errEmptyPortNotFound
        ↔ (run.leased.length : Int) = ptmax - ptmin + 1)
  ∧ (∀ r, (choosePassivePort run.srv r).1.2 = none
        ↔ (run.leased.length : Int) < ptmax - ptmin + 1)
  ∧ (∀ r, (choosePassivePort run.srv r).1.2 ≠ some PortErr.errPassiveModeIsDisabled)
  ∧ (∀ r p srv2, choosePassivePort run.srv r = ((p, none), srv2) →
        p ∉ run.leased ∧ ptmin ≤ p ∧ p ≤ ptmax)
  ∧ (∀ p, p ∈ run.leased →
        (releasePassivePort run.srv p).1 = false
        ∧ ∃ r, (choosePassivePort (releasePassivePort run.srv p).2 r).1.1 = p
            ∧ (choosePassivePort (releasePassivePort run.srv p).2 r).1.2 = none)

theorem c2Conclusion_of_inv (ptmin ptmax : Int) (run : PortRun)
    (hmin : 0 < ptmin) (hmm : ptmin ≤ ptmax) (hmax : ptmax ≤ 65535)
    (hpan : run.panicked = false) (hInv : PortInv ptmin ptmax run.srv run.leased) :
    C2Conclusion ptmin ptmax run := by
  have hnodup : run.leased.Nodup := by
    obtain ⟨-, -, hc⟩ := hInv
    rcases hc with ⟨-, -, hl⟩ | ⟨ps, -, htab⟩
    · rw [hl]
      exact List.nodup_nil
    · obtain ⟨-, -, -, -, -, -, hnd, -⟩ := htab
      exact hnd
  have hrange : ∀ p, p ∈ run.leased → ptmin ≤ p ∧ p ≤ ptmax := by
    intro p hp
    obtain ⟨-, -, hc⟩ := hInv
    rcases hc with ⟨-, -, hl⟩ | ⟨ps, -, htab⟩
    · rw [hl] at hp
      cases hp
    · have htab2 := htab
      obtain ⟨-, -, -, hA, -, -, -, hmem⟩ := htab2
      obtain ⟨i, -, hi2, hi3⟩ := (hmem p).mp hp
      exact hi3 ▸ hA i hi2
  refine ⟨hpan, hnodup, hrange, hInv, ?_, ?_, ?_, ?_, ?_⟩
  · intro r
    rcases choose_spec ptmin ptmax run.srv run.leased r hmin hmm hmax hInv with
      ⟨he, hlen, -⟩ | ⟨he, hlen, -⟩
    · exact ⟨fun _ => hlen, fun _ => he⟩
    · constructor
      · intro hc
        rw [he] at hc
        cases hc
      · intro hc
        omega
  · intro r
    rcases choose_spec ptmin ptmax run.srv run.leased r hmin hmm hmax hInv with
      ⟨he, hlen, -⟩ | ⟨he, hlen, -⟩
    · constructor
      · intro hc
        rw [he] at hc
        cases hc
      · intro hc
        omega
    · exact ⟨fun _ => hlen, fun _ => he⟩
  · intro r
    rcases choose_spec ptmin ptmax run.srv run.leased r hmin hmm hmax hInv with
      ⟨he, -, -⟩ | ⟨he, -, -⟩ <;> rw [he] <;> simp
  · intro r p srv2 heq
    rcases choose_spec ptmin ptmax run.srv run.leased r hmin hmm hmax hInv with
      ⟨he, -, -⟩ | ⟨he, -, hb1, hb2, hfr, -⟩
    · rw [heq] at he
      cases he
    · have hp1 : (choosePassivePort run.srv r).1.1 = p := by rw [heq]
      rw [hp1] at hb1 hb2 hfr
      exact ⟨hfr, hb1, hb2⟩
  · intro p hp
    obtain ⟨hrel1, hrelInv, hreln, ps2, hps2, hgot⟩ :=
      release_spec ptmin ptmax run.srv run.leased p hmin hmm hInv hp
    obtain ⟨hr1, hr2, -⟩ := hrelInv
    refine ⟨hrel1, run.srv.numEmptyPorts, ?_⟩
    exact choose_hits ptmin ptmax (releasePassivePort run.srv p).2 ps2
      run.srv.numEmptyPorts p hmin hmm hmax hr1 hr2 hps2 hreln hgot

/-- C2 (corrected: the range bound `MaxPassivePort ≤ 65535` is required): for
every server configured with `0 < MinPassivePort ≤ MaxPassivePort ≤ 65535` and
every finite valid trace of `choosePassivePort` / `releasePassivePort` calls
(each release naming an outstanding lease), the run never panics, the leased
ports are duplicate-free and lie within `[min, max]`, the `ports` array and the
`idxPorts` inverted index remain inverse permutations of each other
(`PortInv`), `choosePassivePort` fails with the no-free-port error exactly when
all `max - min + 1` ports are leased (and never with the disabled error), a
successful choose never returns a port that was chosen and not yet released,
and after `releasePassivePort p` a later `choosePassivePort` can return `p`
again. -/
theorem c2_port_lease_invariants (ptmin ptmax : Int) (ops : List PortOp)
    (hmin : 0 < ptmin) (hmm : ptmin ≤ ptmax) (hmax : ptmax ≤ 65535)
    (hvalid : (runPorts ptmin ptmax ops).valid = true) :
    C2Conclusion ptmin ptmax (runPorts ptmin ptmax ops) := by
  obtain ⟨hpan, hInv⟩ := runPorts_good ptmin ptmax ops hmin hmm hmax hvalid
  exact c2Conclusion_of_inv ptmin ptmax _ hmin hmm hmax hpan hInv

/-- Witness for `c2_port_lease_invariants` at `min = 1`, `max = 2` and the
one-operation trace `[choose 0]`. -/
theorem c2_port_lease_invariants_witness :
    (0 : Int) < 1 ∧ (1 : Int) ≤ 2 ∧ (2 : Int) ≤ 65535
    ∧ (runPorts 1 2 [PortOp.choose 0]).valid = true
    ∧ C2Conclusion 1 2 (runPorts 1 2 [PortOp.choose 0]) :=
  ⟨by decide, by decide, by decide, rfl,
    c2_port_lease_invariants 1 2 [PortOp.choose 0] (by decide) (by decide) (by decide) rfl⟩

/-- C2 counterexample to the claim as stated (which allows any
`0 < MinPassivePort ≤ MaxPassivePort`): with `MinPassivePort = 65535` and
`MaxPassivePort = 65536`, after a single lease the next choose already fails
with `errEmptyPortNotFound`, although only 1 port is leased and the claim
expects failure exactly at `max - min + 1 = 2` leases: `choosePassivePort`
clamps `max` to 65535, so the table only ever holds one port. -/
theorem c2_port_clamp_counterexample :
    (runPorts 65535 65536 [PortOp.choose 0]).valid = true
    ∧ (runPorts 65535 65536 [PortOp.choose 0]).panicked = false
    ∧ (runPorts 65535 65536 [PortOp.choose 0]).leased.length = 1
    ∧ (65536 - 65535 + 1 : Int) = 2
    ∧ (choosePassivePort (runPorts 65535 65536 [PortOp.choose 0]).srv 0).1.2
        = some PortErr.errEmptyPortNotFound :=
  ⟨rfl, rfl, rfl, by decide, rfl⟩

end S3FTP
